import Mathlib

/-!
Shallow embedding of `src/app.py` (a Flask quiz app: participants submit three
tracks each; a session shows each participant's tracks once and asks the player
to guess the owner).  The SQLite tables are embedded as lists, the Flask
session dictionary as a structure of `Option` fields (`none` = key absent), and
the `random` draws as oracle parameters (an index modulo the list length, so
every element the library could draw is reachable).  All definitions are
executable and follow the Python line by line.
-/

set_option maxRecDepth 8192

namespace SpotifyWrapped

/-- A row of the `people` table. -/
structure Person where
  id : Nat
  name : String
deriving Repr, DecidableEq

/-- A row of the `tracks` table. -/
structure Track where
  person_id : Nat
  track_id : String
  pos : Nat
deriving Repr, DecidableEq

/-- A row of the `person_stats` table. -/
structure StatsRow where
  person_id : Nat
  correct_guesses : Nat
  total_guesses : Nat
deriving Repr, DecidableEq

/-- A row of the `leaderboard` table; `created_at` is a logical timestamp
(monotone insertion index standing for CURRENT_TIMESTAMP). -/
structure LBEntry where
  name : String
  right : Nat
  total : Nat
  percent : Nat
  created_at : Nat
deriving Repr, DecidableEq

/-- The SQLite database of `app.py`. -/
structure DB where
  people : List Person
  tracks : List Track
  person_stats : List StatsRow
  leaderboard : List LBEntry
deriving Repr, DecidableEq

/-- The per-session score dictionary defaulting to right 0 and total 0. -/
structure Score where
  right : Nat
  total : Nat
deriving Repr, DecidableEq

/-- One entry of the per-session `history` list (app.py lines 308-313). -/
structure HistEntry where
  chosen : Option String
  correct : String
  is_right : Bool
  tracks : List String
deriving Repr, DecidableEq

/-- The `last_result` dictionary (app.py line 321). -/
structure LastResult where
  chosen : Option String
  correct : String
  is_right : Bool
deriving Repr, DecidableEq

/-- The Flask session dictionary.  `none` in an outer `Option` means the key is
absent.  `remaining_people` is doubly optional because app.py stores the Python
value `None` under the key when the last person has been guessed (line 301):
`some none` is the stored `None`, `some (some l)` a stored list.  `extra`
stands for session keys unrelated to the game (the comment on line 475 mentions
admin login data), never touched by any game operation. -/
structure SessionState where
  remaining_people : Option (Option (List Nat))
  all_shown : Bool
  current_person_id : Option Nat
  correct_person_id : Option Nat
  current_track_ids : Option (List String)
  score : Option Score
  history : Option (List HistEntry)
  total_people : Option Nat
  name_submitted : Bool
  last_result : Option LastResult
  extra : List (String × String)
deriving Repr, DecidableEq

/-- A brand-new session: no keys set. -/
def initSession : SessionState :=
  ⟨none, false, none, none, none, none, none, none, false, none, []⟩

/-! ### Binary64 model for Python's `int((a / b) * 100)`

`enter_name` (line 427) and the quiz progress bar (line 234) compute
`int((a / b) * 100)` with Python floats, i.e. IEEE-754 binary64: the division
is rounded to 53 significand bits (round-to-nearest, ties-to-even), the
multiplication by 100 is rounded again, and `int` truncates toward zero.  We
model a positive float as an unbounded-exponent pair `m * 2^e` with
`2^52 ≤ m < 2^53` (exactly IEEE in the normal range, which covers every value
these routines can produce from session counters). -/

/-- Number of bits of `n` (0 for 0), with enough fuel for astronomically large
inputs. -/
def bitLenAux : Nat → Nat → Nat
  | 0, _ => 0
  | f + 1, n => if n = 0 then 0 else bitLenAux f (n / 2) + 1

/-- Bit length of a natural number. -/
def bitLen (n : Nat) : Nat := bitLenAux 4096 n

/-- A positive binary64 value `m * 2^e` (or zero when `m = 0`). -/
structure F64 where
  m : Nat
  e : Int
deriving Repr, DecidableEq

/-- Round the positive rational `a / b` (`a, b > 0`) to 53 significand bits,
round-to-nearest ties-to-even: the binary64 result of Python's `a / b`. -/
def roundRat53 (a b : Nat) : F64 :=
  let N := 200 + bitLen b
  let q := (a <<< N) / b
  let d := bitLen q - 53
  let den := b <<< d
  let m0 := (a <<< N) / den
  let r := (a <<< N) % den
  let m1 := if den < 2 * r ∨ (2 * r = den ∧ m0 % 2 = 1) then m0 + 1 else m0
  if m1 = 2 ^ 53 then ⟨2 ^ 52, (d : Int) + 1 - N⟩ else ⟨m1, (d : Int) - N⟩

/-- Multiply a binary64 value by 100 and round back to 53 bits (ties to even):
the binary64 result of Python's `x * 100`. -/
def mul100Round (f : F64) : F64 :=
  if f.m = 0 then f else
  let p := f.m * 100
  let l := bitLen p
  if l ≤ 53 then ⟨p, f.e⟩ else
  let d := l - 53
  let m0 := p >>> d
  let r := p % (1 <<< d)
  let half := 1 <<< (d - 1)
  let m1 := if half < r ∨ (r = half ∧ m0 % 2 = 1) then m0 + 1 else m0
  if m1 = 2 ^ 53 then ⟨2 ^ 52, f.e + d + 1⟩ else ⟨m1, f.e + d⟩

/-- Truncate a nonnegative binary64 value toward zero: Python's `int(x)`. -/
def truncF64 (f : F64) : Nat :=
  match f.e with
  | Int.ofNat k => f.m <<< k
  | Int.negSucc k => f.m >>> (k + 1)

/-- Python's `int((a / b) * 100) if b > 0 else 0` in binary64 arithmetic
(app.py lines 234 and 427). -/
def pyPercent (a b : Nat) : Nat :=
  if 0 < b then
    if a = 0 then 0 else truncF64 (mul100Round (roundRat53 a b))
  else 0

/-! ### Stable insertion sorts

`app.py` relies on SQLite `ORDER BY` (tracks by `pos`, join rows by
`track_id`, chameleon and leaderboard orderings) and on Python's stable
`sorted` (shared-track groups by owner count, descending).  These small
structurally-recursive sorts model them; the descending sort is stable exactly
like Python's `sorted(..., reverse=True)`. -/

/-- Insert into an ascending-by-`key` list, after all entries with a key `≤`. -/
def insertByAsc {α : Type} (key : α → Nat) (x : α) : List α → List α
  | [] => [x]
  | y :: ys => if key y ≤ key x then y :: insertByAsc key x ys else x :: y :: ys

/-- Stable ascending sort by a `Nat` key. -/
def sortByAsc {α : Type} (key : α → Nat) (l : List α) : List α :=
  l.foldl (fun acc x => insertByAsc key x acc) []

/-- Byte-wise (code-point-wise) lexicographic `≤` on strings, the BINARY
collation SQLite uses for `ORDER BY` on TEXT. -/
def charListLe : List Char → List Char → Bool
  | [], _ => true
  | _ :: _, [] => false
  | c :: cs, d :: ds =>
    if c.toNat < d.toNat then true
    else if d.toNat < c.toNat then false
    else charListLe cs ds

/-- String `≤` under BINARY collation. -/
def strLe (a b : String) : Bool := charListLe a.data b.data

/-- Insert into an ascending-by-string-`key` list. -/
def insertByStrAsc {α : Type} (key : α → String) (x : α) : List α → List α
  | [] => [x]
  | y :: ys => if strLe (key y) (key x) then y :: insertByStrAsc key x ys else x :: y :: ys

/-- Stable ascending sort by a string key. -/
def sortByStrAsc {α : Type} (key : α → String) (l : List α) : List α :=
  l.foldl (fun acc x => insertByStrAsc key x acc) []

/-- Insert into a descending-by-`key` list, after all entries with a key `≥`
(ties keep the earlier element first, like Python's stable sort). -/
def insertByDesc {α : Type} (key : α → Nat) (x : α) : List α → List α
  | [] => [x]
  | y :: ys => if key x ≤ key y then y :: insertByDesc key x ys else x :: y :: ys

/-- Stable descending sort by a `Nat` key: Python `sorted(key=..., reverse=True)`. -/
def sortByDesc {α : Type} (key : α → Nat) (l : List α) : List α :=
  l.foldl (fun acc x => insertByDesc key x acc) []

/-! ### The routes of `app.py` -/

/-- Players eligible for a round: `SELECT p.* FROM people p WHERE (SELECT
COUNT(1) FROM tracks t WHERE t.person_id = p.id) >= 3` (lines 165-172). -/
def eligible (db : DB) : List Person :=
  db.people.filter (fun p => 3 ≤ (db.tracks.filter (fun t => t.person_id == p.id)).length)

/-- The ids of the eligible players, in table order. -/
def poolIds (db : DB) : List Nat := (eligible db).map (fun p => p.id)

/-- `SELECT id FROM people WHERE id=?` / `find the person row` (first match). -/
def findPerson (db : DB) (pid : Nat) : Option Person :=
  db.people.find? (fun p => p.id == pid)

/-- Oracle model of `random.choice(l)`: the caller supplies `i`, the element
`l[i % len(l)]` is drawn (none on the empty list, where `random.choice`
raises). -/
def randomChoice (l : List Nat) (i : Nat) : Option Nat :=
  l.get? (i % l.length)

/-- Oracle model of `random.sample(l, 2)`: draw index `j`, then index `k` from
the rest; `none` when fewer than two elements (where `random.sample` raises). -/
def sample2 (l : List String) (j k : Nat) : Option (List String) :=
  if l.length < 2 then none
  else
    let ji := j % l.length
    let a := l.getD ji ""
    let rest := l.eraseIdx ji
    let b := rest.getD (k % rest.length) ""
    some [a, b]

/-- The track ids of person `pid`, ordered by `pos` (lines 197-198). -/
def quizTracks (db : DB) (pid : Nat) : List String :=
  (sortByAsc (fun t => t.pos) (db.tracks.filter (fun t => t.person_id == pid))).map
    (fun t => t.track_id)

/-- What the quiz page renders (tracks, shuffled choices, progress percent). -/
structure QuizView where
  track_ids : List String
  choices : List String
  progressPercent : Nat
deriving Repr, DecidableEq

/-- Outcome of a GET on `/quiz`.  `errCrash` marks the unreachable exception
paths (a draw from an empty list, a dangling person id); on an exception the
response is a 500 and the session cookie is not updated, so those branches
return the incoming session unchanged. -/
inductive QuizResult where
  | emptyState
  | needMorePlayers (count : Nat)
  | redirectFinished
  | page (v : QuizView)
  | errCrash
deriving Repr

/-- The `/quiz` route (lines 161-237).  `i j k` are the oracle draws for
`random.choice` and `random.sample`, `sh` the permutation `random.shuffle`
applies to the choice list.  Note the source draws a fresh subject on every
request (line 192), even when a round is already pending; the fetched `person`
row of line 196 and the `guessed_correctly` list of lines 205-209 are dead
code and do not affect the result. -/
def quiz (db : DB) (s : SessionState) (i j k : Nat) (sh : List String → List String) :
    SessionState × QuizResult :=
  let people := eligible db
  if people.isEmpty then (s, .emptyState)
  else if people.length < 3 then (s, .needMorePlayers people.length)
  else if s.all_shown then (s, .redirectFinished)
  else
    let remaining :=
      match s.remaining_people.getD none with
      | none => people.map (fun p => p.id)
      | some l => l
    match randomChoice remaining i with
    | none => (s, .errCrash)
    | some person_id =>
      match findPerson db person_id with
      | none => (s, .errCrash)
      | some correct_person =>
        let correct_name := correct_person.name
        let track_ids := quizTracks db person_id
        let other_names := (people.filter (fun p => p.id != person_id)).map (fun p => p.name)
        match sample2 other_names j k with
        | none => (s, .errCrash)
        | some distractors =>
          let names := sh (correct_name :: distractors)
          let s1 := { s with remaining_people := some (some remaining),
                             current_person_id := some person_id,
                             correct_person_id := some person_id,
                             current_track_ids := some track_ids }
          let s2 :=
            match s1.total_people with
            | none => { s1 with total_people := some db.people.length }
            | some _ => s1
          let score := s2.score.getD ⟨0, 0⟩
          let tp := s2.total_people.getD 0
          (s2, .page ⟨track_ids, names, pyPercent score.total tp⟩)

/-- The JSON body `/guess` returns (lines 324-330). -/
structure GuessResponse where
  chosen : Option String
  correct : String
  is_right : Bool
  score : Score
  finished : Bool
deriving Repr, DecidableEq

/-- Outcome of a POST to `/guess`.  `errCrash` marks the unreachable
`TypeError` of `current_person_id in None` (line 296 with a stored `None`):
the stats update was already committed but the session is not saved. -/
inductive GuessResult where
  | redirectQuiz
  | json (r : GuessResponse)
  | errCrash
deriving Repr, DecidableEq

/-- The `person_stats` upsert of lines 256-284: increment `total_guesses`
always, `correct_guesses` when the guess was right, inserting the row if
absent. -/
def updateStats (rows : List StatsRow) (pid : Nat) (result : Bool) : List StatsRow :=
  if rows.any (fun r => r.person_id == pid) then
    rows.map (fun r =>
      if r.person_id == pid then
        ⟨r.person_id, r.correct_guesses + (if result then 1 else 0), r.total_guesses + 1⟩
      else r)
  else
    rows ++ [⟨pid, if result then 1 else 0, 1⟩]

/-- The `/guess` route (lines 242-330). -/
def guess (db : DB) (s : SessionState) (chosen : Option String) :
    DB × SessionState × GuessResult :=
  match s.correct_person_id with
  | none => (db, s, .redirectQuiz)
  | some correct_id =>
    let correct_name :=
      match findPerson db correct_id with
      | some p => p.name
      | none => "Unknown"
    let result := chosen == some correct_name
    let db1 : DB := ⟨db.people, db.tracks, updateStats db.person_stats correct_id result, db.leaderboard⟩
    let score0 := s.score.getD ⟨0, 0⟩
    let score1 : Score := ⟨score0.right + (if result then 1 else 0), score0.total + 1⟩
    let s1 := { s with score := some score1 }
    match (match s.remaining_people with
           | none => some ([] : List Nat)
           | some v => v) with
    | none => (db1, s, .errCrash)
    | some remaining =>
      let s2 :=
        match s1.current_person_id with
        | some cpid =>
          if cpid ∈ remaining then
            let remaining' := remaining.erase cpid
            if remaining'.isEmpty then
              { s1 with remaining_people := some none, all_shown := true }
            else
              { s1 with remaining_people := some (some remaining') }
          else s1
        | none => s1
      let history := s2.history.getD []
      let round_tracks := s2.current_track_ids.getD []
      let entry : HistEntry := ⟨chosen, correct_name, result, round_tracks⟩
      let s3 := { s2 with history := some (history ++ [entry]),
                          current_track_ids := none,
                          correct_person_id := none,
                          last_result := some ⟨chosen, correct_name, result⟩ }
      (db1, s3, .json ⟨chosen, correct_name, result, score1, s3.all_shown⟩)

/-- The joined rows `SELECT t.track_id, p.name FROM tracks t JOIN people p ON
t.person_id = p.id ORDER BY t.track_id` (lines 349-354). -/
def trackOwnerRows (db : DB) : List (String × String) :=
  sortByStrAsc (fun r => r.1)
    (db.tracks.filterMap (fun t => (findPerson db t.person_id).map (fun p => (t.track_id, p.name))))

/-- The grouping loop of lines 357-362: a dict keyed by `track_id` in
insertion order, each value the list of owner names in row order. -/
def groupOwners (rows : List (String × String)) : List (String × List String) :=
  rows.foldl
    (fun acc r =>
      if acc.any (fun g => g.1 == r.1) then
        acc.map (fun g => if g.1 == r.1 then (g.1, g.2 ++ [r.2]) else g)
      else acc ++ [(r.1, [r.2])])
    []

/-- The shared-track analysis of lines 345-375: group, keep groups with more
than one owner record, sort by owner count descending (Python's stable sort). -/
def sharedTracks (db : DB) : List (String × List String) :=
  sortByDesc (fun g => g.2.length)
    ((groupOwners (trackOwnerRows db)).filter (fun g => 1 < g.2.length))

/-- A row of the chameleon query result (line 388-396). -/
structure ChamRow where
  name : String
  correct_guesses : Nat
  total_guesses : Nat
  success_rate10 : Nat
deriving Repr, DecidableEq

/-- `ROUND(correct_guesses * 100.0 / total_guesses, 1)` in tenths of a
percent: round half away from zero of the exact rate, which agrees with the
SQL double computation at every point where the doubles decide or tie. -/
def rate10 (r : StatsRow) : Nat :=
  (2000 * r.correct_guesses + r.total_guesses) / (2 * r.total_guesses)

/-- The chameleon candidate rows: stats rows with `total_guesses >= 3` joined
to `people` (table order). -/
def chamCandidates (db : DB) : List ChamRow :=
  (db.person_stats.filter (fun r => 3 ≤ r.total_guesses)).filterMap
    (fun r => (findPerson db r.person_id).map
      (fun p => ⟨p.name, r.correct_guesses, r.total_guesses, rate10 r⟩))

/-- `ORDER BY success_rate ASC, total_guesses DESC`: `cand` sorts strictly
before `best`. -/
def chamBetter (cand best : ChamRow) : Bool :=
  cand.success_rate10 < best.success_rate10 ||
    (cand.success_rate10 == best.success_rate10 && best.total_guesses < cand.total_guesses)

/-- The `LIMIT 1` chameleon query of lines 388-396 (first row wins on a full
tie, where SQLite's order is unspecified). -/
def chameleon (db : DB) : Option ChamRow :=
  (chamCandidates db).foldl
    (fun best cand =>
      match best with
      | none => some cand
      | some b => if chamBetter cand b then some cand else some b)
    none

/-- Strict "sorts before" for leaderboard display: `percent DESC, right DESC,
created_at ASC` (lines 380-384 and 460-466). -/
def lbBefore (a b : LBEntry) : Bool :=
  b.percent < a.percent ||
    (a.percent == b.percent &&
      (b.right < a.right || (a.right == b.right && a.created_at < b.created_at)))

/-- Insert into a display-ordered leaderboard list. -/
def insertLB (x : LBEntry) : List LBEntry → List LBEntry
  | [] => [x]
  | y :: ys => if lbBefore x y then x :: y :: ys else y :: insertLB x ys

/-- The leaderboard in display order. -/
def lbSorted (db : DB) : List LBEntry :=
  db.leaderboard.foldl (fun acc x => insertLB x acc) []

/-- What `/finished` renders (lines 398-407). -/
structure FinishedView where
  score : Score
  last : Option LastResult
  history : List HistEntry
  shared_tracks : List (String × List String)
  leaderboard_entries : List LBEntry
  chameleon : Option ChamRow
  show_name_modal : Bool
deriving Repr, DecidableEq

/-- The `/finished` route (lines 337-407); it reads the session and the store
and writes neither. -/
def finished (db : DB) (s : SessionState) : FinishedView :=
  ⟨s.score.getD ⟨0, 0⟩, s.last_result, s.history.getD [], sharedTracks db,
   (lbSorted db).take 5, chameleon db, s.all_shown && !s.name_submitted⟩

/-- Python's `str.strip()` on ASCII whitespace. -/
def pyStrip (s : String) : String :=
  ⟨((s.data.dropWhile Char.isWhitespace).reverse.dropWhile Char.isWhitespace).reverse⟩

/-- Outcome of `/enter-name` and `/skip-name`. -/
inductive NameResult where
  | redirectQuiz
  | errorEmptyName
  | redirectFinished
deriving Repr, DecidableEq

/-- The `/enter-name` route (lines 413-442).  A valid POST always inserts a
leaderboard row; the only reads of the session are `all_shown` and `score`,
and `name_submitted` is written afterwards (line 437) but never checked
here. -/
def enter_name (db : DB) (s : SessionState) (isPost : Bool) (formName : Option String) :
    DB × SessionState × NameResult :=
  if !s.all_shown then (db, s, .redirectQuiz)
  else if isPost then
    let player_name := pyStrip (formName.getD "")
    if player_name == "" then (db, s, .errorEmptyName)
    else
      let score := s.score.getD ⟨0, 0⟩
      let right := score.right
      let total := score.total
      let percent := pyPercent right total
      let db1 : DB := ⟨db.people, db.tracks, db.person_stats,
        db.leaderboard ++ [⟨player_name, right, total, percent, db.leaderboard.length⟩]⟩
      (db1, { s with name_submitted := true }, .redirectFinished)
  else (db, s, .redirectFinished)

/-- The `/skip-name` route (lines 445-450). -/
def skip_name (db : DB) (s : SessionState) : DB × SessionState × NameResult :=
  if s.all_shown && !s.name_submitted then
    (db, { s with name_submitted := true }, .redirectFinished)
  else (db, s, .redirectFinished)

/-- The `/reset` route (lines 473-479): pop exactly the eight listed keys.
`current_person_id` and `total_people` are not in the list and survive, as
does everything unrelated to the game. -/
def resetSession (s : SessionState) : SessionState :=
  { s with remaining_people := none, all_shown := false, correct_person_id := none,
           last_result := none, score := none, history := none,
           current_track_ids := none, name_submitted := false }

/-! ### Request-level operations and reachability -/

/-- One request hitting the app with this session's cookie, or an external
store change (another session guessing or submitting, `/input-songs`). -/
inductive Op where
  | opQuiz (i j k : Nat) (sh : List String → List String)
  | opGuess (chosen : Option String)
  | opEnterName (isPost : Bool) (formName : Option String)
  | opSkipName
  | opReset
  | opFinished
  | opStoreExternal (f : DB → DB)

/-- Apply one operation to the store and this session. -/
def applyOp (db : DB) (s : SessionState) : Op → DB × SessionState
  | .opQuiz i j k sh => (db, (quiz db s i j k sh).1)
  | .opGuess c => ((guess db s c).1, (guess db s c).2.1)
  | .opEnterName p n => ((enter_name db s p n).1, (enter_name db s p n).2.1)
  | .opSkipName => ((skip_name db s).1, (skip_name db s).2.1)
  | .opReset => (db, resetSession s)
  | .opFinished => (db, s)
  | .opStoreExternal f => (f db, s)

/-- Run a sequence of operations. -/
def run (db : DB) (s : SessionState) : List Op → DB × SessionState
  | [] => (db, s)
  | op :: ops => run (applyOp db s op).1 (applyOp db s op).2 ops

/-- Session states reachable from a fresh session under any store and any
request interleaving. -/
def ReachableSession (s : SessionState) : Prop :=
  ∃ db0 ops, (run db0 initSession ops).2 = s

/-! ### Derived views and invariants used by the claims -/

/-- The remaining list the quiz route will use: the stored list, or the full
eligible pool when the key is absent or holds `None` (lines 186-189). -/
def remView (db : DB) (s : SessionState) : List Nat :=
  match s.remaining_people.getD none with
  | none => poolIds db
  | some l => l

/-- The session score with its dictionary default (line 287). -/
def scoreOf (s : SessionState) : Score := s.score.getD ⟨0, 0⟩

/-- The session history with its dictionary default (line 306). -/
def historyOf (s : SessionState) : List HistEntry := s.history.getD []

/-- The score/history coupling: `score.total` counts history entries and
`score.right` counts the right ones. -/
def ScoreHistoryInv (s : SessionState) : Prop :=
  (scoreOf s).total = (historyOf s).length ∧
  (scoreOf s).right = (historyOf s).countP (fun e => e.is_right)

/-- The guess counters of one participant, with the absent-row default. -/
def statsFor (db : DB) (pid : Nat) : StatsRow :=
  (db.person_stats.find? (fun r => r.person_id == pid)).getD ⟨pid, 0, 0⟩

/-- A round is pending for the session: a correct answer is stored and the
remaining key does not hold the terminal `None` (which the flow only stores
after popping the correct answer). -/
def roundPendingOK (s : SessionState) : Prop :=
  s.correct_person_id.isSome ∧ s.remaining_people ≠ some none

/-- One scored round: the oracle draws for the quiz request plus the submitted
guess. -/
structure Move where
  i : Nat
  j : Nat
  k : Nat
  sh : List String → List String
  chosen : Option String

/-- Play a sequence of rounds: each one quiz request then one guess. -/
def runRounds (db : DB) (s : SessionState) : List Move → DB × SessionState
  | [] => (db, s)
  | m :: ms =>
    runRounds (guess db (quiz db s m.i m.j m.k m.sh).1 m.chosen).1
      (guess db (quiz db s m.i m.j m.k m.sh).1 m.chosen).2.1 ms

/-- The subject drawn in each round of a run (the id the quiz stored). -/
def roundSubjects (db : DB) (s : SessionState) : List Move → List Nat
  | [] => []
  | m :: ms =>
    (quiz db s m.i m.j m.k m.sh).1.correct_person_id.getD 0 ::
      roundSubjects (guess db (quiz db s m.i m.j m.k m.sh).1 m.chosen).1
        (guess db (quiz db s m.i m.j m.k m.sh).1 m.chosen).2.1 ms

/-- Session shape after the subjects `D` have been scored, starting from a
fresh session against the pool of `db`: the drawn subjects are distinct pool
members, no guess is pending, and the remaining set is the pool minus the
drawn subjects — stored `None` with `all_shown` exactly when it is empty. -/
def RemState (db : DB) (s : SessionState) (D : List Nat) : Prop :=
  D.Nodup ∧ (∀ x ∈ D, x ∈ poolIds db) ∧ s.correct_person_id = none ∧
  (if D.length < (poolIds db).length then
     (s.remaining_people = some (some ((poolIds db).diff D)) ∨
        (D = [] ∧ s.remaining_people = none)) ∧ s.all_shown = false
   else
     s.remaining_people = some none ∧ s.all_shown = true ∧
       D.length = (poolIds db).length)

/-- Modelled from the spec: "among participants with `total_guesses ≥ 3`,
select minimum `correct_guesses/total_guesses` ratio; tie-break by highest
`total_guesses` descending" — the EXACT ratio, compared by cross
multiplication, unlike the code's one-decimal `ROUND`. -/
def specBetter (cand best : ChamRow) : Bool :=
  cand.correct_guesses * best.total_guesses < best.correct_guesses * cand.total_guesses ||
    (cand.correct_guesses * best.total_guesses == best.correct_guesses * cand.total_guesses &&
      best.total_guesses < cand.total_guesses)

/-- Modelled from the spec: the chameleon under the exact-ratio ordering, over
the same candidate rows as the code. -/
def chameleonSpec (db : DB) : Option ChamRow :=
  (chamCandidates db).foldl
    (fun best cand =>
      match best with
      | none => some cand
      | some b => if specBetter cand b then some cand else some b)
    none

/-! ### Concrete data for counterexamples and witnesses -/

/-- Three tracks for one person. -/
def tracks3 (pid : Nat) (a b c : String) : List Track :=
  [⟨pid, a, 1⟩, ⟨pid, b, 2⟩, ⟨pid, c, 3⟩]

/-- Four eligible players A, B, C, D with three tracks each. -/
def dbFour : DB :=
  ⟨[⟨1, "A"⟩, ⟨2, "B"⟩, ⟨3, "C"⟩, ⟨4, "D"⟩],
   tracks3 1 "a1" "a2" "a3" ++ tracks3 2 "b1" "b2" "b3" ++
     tracks3 3 "c1" "c2" "c3" ++ tracks3 4 "d1" "d2" "d3",
   [], []⟩

/-- An empty store. -/
def dbEmpty : DB := ⟨[], [], [], []⟩

/-- A session that has finished the quiz with score 1 of 2. -/
def sFinished12 : SessionState :=
  ⟨some none, true, some 2, none, none, some ⟨1, 2⟩, none, some 2, false, none, []⟩

/-- A session with every game key set, plus an unrelated `admin` key. -/
def sFull : SessionState :=
  ⟨some (some [2]), false, some 3, some 3, some ["t"], some ⟨1, 2⟩,
   some [⟨some "A", "A", true, ["a1"]⟩], some 5, true, some ⟨some "A", "A", true⟩,
   [("admin", "1")]⟩

/-- Stats where the exact-ratio minimum (P1, 1/7 ≈ 14.29%) and the rounded
minimum (tie at 14.3% between P1 and P2 = 32/223 ≈ 14.35%, broken by the
higher `total_guesses` of P2) disagree. -/
def dbCham : DB := ⟨[⟨1, "P1"⟩, ⟨2, "P2"⟩], [], [⟨1, 1, 7⟩, ⟨2, 32, 223⟩], []⟩

/-- The spec's chameleon example: X 1/4, Y 2/3, Z below the threshold. -/
def dbChamXYZ : DB :=
  ⟨[⟨1, "X"⟩, ⟨2, "Y"⟩, ⟨3, "Z"⟩], [], [⟨1, 1, 4⟩, ⟨2, 2, 3⟩, ⟨3, 0, 2⟩], []⟩

/-- A store where participant A entered the same track twice: track `x` has
two owner records but only one distinct owner name. -/
def dbDupTrack : DB := ⟨[⟨1, "A"⟩], [⟨1, "x", 1⟩, ⟨1, "x", 2⟩, ⟨1, "y", 3⟩], [], []⟩

/-- The spec's shared-track example: "abc" owned by A and B, "xyz" only by A. -/
def dbSharedEx : DB :=
  ⟨[⟨1, "A"⟩, ⟨2, "B"⟩], [⟨1, "abc", 1⟩, ⟨1, "xyz", 2⟩, ⟨2, "abc", 1⟩], [], []⟩

/-- A one-person store for the guess witnesses. -/
def dbOne : DB := ⟨[⟨1, "A"⟩], tracks3 1 "a1" "a2" "a3", [], []⟩

/-- A session with a pending round on subject 1. -/
def sPending : SessionState :=
  ⟨some (some [1]), false, some 1, some 1, some ["a1", "a2", "a3"], none, none,
   some 1, false, none, []⟩

/-- A finished session with score 29 of 100. -/
def sScore29 : SessionState :=
  ⟨some none, true, none, none, none, some ⟨29, 100⟩, none, some 100, false, none, []⟩

/-- The session after one quiz request on `dbFour` (a round is pending on
subject 1, no guess submitted yet). -/
def sReentry : SessionState := (quiz dbFour initSession 0 0 0 (fun l => l)).1

/-- Four rounds through `dbFour` with arbitrary draws and guesses. -/
def moves4 : List Move :=
  [⟨0, 0, 0, fun l => l, some "A"⟩, ⟨0, 0, 0, fun l => l, none⟩,
   ⟨1, 1, 0, fun l => l, some "C"⟩, ⟨0, 0, 0, fun l => l, some "D"⟩]

/-! ## Theorems -/

/-- C4 counterexample: the reset route does not clear the `total_people`
snapshot (and leaves `current_person_id` too): the claim that reset clears
every Session State field is false. -/
theorem c4_counterexample :
    (resetSession sFull).total_people = some 5 ∧
    (resetSession sFull).current_person_id = some 3 ∧
    sFull.total_people = some 5 :=
  ⟨rfl, rfl, rfl⟩

/-- C4 amended: reset pops exactly `remaining_people`, `all_shown`,
`correct_person_id`, `last_result`, `score`, `history`, `current_track_ids`
and `name_submitted`; it preserves `total_people`, `current_person_id` and any
session data unrelated to the game, and never touches the store (people,
tracks, stats, leaderboard). -/
theorem c4_amended (db : DB) (s : SessionState) :
    (applyOp db s .opReset).1 = db ∧
    (resetSession s).remaining_people = none ∧
    (resetSession s).all_shown = false ∧
    (resetSession s).correct_person_id = none ∧
    (resetSession s).current_track_ids = none ∧
    (resetSession s).score = none ∧
    (resetSession s).history = none ∧
    (resetSession s).name_submitted = false ∧
    (resetSession s).last_result = none ∧
    (resetSession s).total_people = s.total_people ∧
    (resetSession s).current_person_id = s.current_person_id ∧
    (resetSession s).extra = s.extra :=
  ⟨rfl, rfl, rfl, rfl, rfl, rfl, rfl, rfl, rfl, rfl, rfl, rfl⟩

/-- C8: a guess with no pending round (no stored `correct_person_id`) is a
soft redirect to the quiz: store and session are returned identically, so
score, history, remaining set and the guess statistics are all unchanged. -/
theorem c8_stale_guess (db : DB) (s : SessionState) (chosen : Option String)
    (h : s.correct_person_id = none) :
    guess db s chosen = (db, s, .redirectQuiz) := by
  unfold guess
  rw [h]

/-- C8 witness: the stale-guess redirect on a concrete store and session. -/
theorem c8_stale_guess_witness :
    guess dbOne initSession (some "A") = (dbOne, initSession, .redirectQuiz) :=
  c8_stale_guess dbOne initSession (some "A") rfl

/-- C5: the percent written at name submission is computed in binary64
arithmetic, not integer floor division: at right 29 of total 100 the code
stores 28 while `floor(29*100/100) = 29`.  The guarded cases of the claim do
hold: total 0 gives 0 and right 2 of 3 gives 66. -/
theorem c5_percent_divergence :
    pyPercent 29 100 = 28 ∧ 29 * 100 / 100 = 29 ∧
    pyPercent 29 50 = 57 ∧ 29 * 100 / 50 = 58 ∧
    (enter_name dbEmpty sScore29 true (some "Al")).1.leaderboard =
      [⟨"Al", 29, 100, 28, 0⟩] ∧
    pyPercent 2 3 = 66 ∧ pyPercent 0 0 = 0 ∧ pyPercent 5 5 = 100 :=
  ⟨rfl, rfl, rfl, rfl, rfl, rfl, rfl, rfl⟩

/-- C2 counterexample: with a round already pending (subject 1 drawn, guess
not yet submitted), re-requesting the quiz draws afresh: under draw oracle 1
the subject becomes 2 and the rendered choices change, so the claim that the
same subject and choices are returned is false. -/
theorem c2_counterexample :
    (quiz dbFour initSession 0 0 0 (fun l => l)).1.correct_person_id = some 1 ∧
    (quiz dbFour initSession 0 0 0 (fun l => l)).2 =
      .page ⟨["a1", "a2", "a3"], ["A", "B", "C"], 0⟩ ∧
    (quiz dbFour ((quiz dbFour initSession 0 0 0 (fun l => l)).1) 1 2 1
        (fun l => l)).1.correct_person_id = some 2 ∧
    (quiz dbFour ((quiz dbFour initSession 0 0 0 (fun l => l)).1) 1 2 1
        (fun l => l)).2 = .page ⟨["b1", "b2", "b3"], ["B", "D", "C"], 0⟩ :=
  ⟨rfl, rfl, rfl, rfl⟩

/-- C3 counterexample: `enter_name` never checks `name_submitted`; after a
successful submission (which does set the flag) a second POST of the same name
inserts a second leaderboard row, so "at most one entry per session" is
false. -/
theorem c3_counterexample :
    (enter_name dbEmpty sFinished12 true (some "Al")).2.1.name_submitted = true ∧
    ((enter_name (enter_name dbEmpty sFinished12 true (some "Al")).1
        (enter_name dbEmpty sFinished12 true (some "Al")).2.1 true
        (some "Al")).1).leaderboard.length = 2 :=
  ⟨rfl, rfl⟩

/-- C6 counterexample: the query orders by the rate ROUNDed to one decimal,
not the exact ratio.  P1 (1/7 ≈ 14.286%) has the strictly smaller exact ratio
than P2 (32/223 ≈ 14.350%), but both round to 14.3%, and the tie-break on
higher `total_guesses` makes the code return P2. -/
theorem c6_counterexample :
    chameleon dbCham = some ⟨"P2", 32, 223, 143⟩ ∧
    chameleonSpec dbCham = some ⟨"P1", 1, 7, 143⟩ ∧
    1 * 223 < 32 * 7 :=
  ⟨rfl, rfl, by decide⟩

/-- C7 counterexample: the filter keeps groups with more than one owner
RECORD, not more than one distinct owner name: a track entered twice by the
same participant is reported as shared. -/
theorem c7_counterexample :
    sharedTracks dbDupTrack = [("x", ["A", "A"])] ∧
    ["A", "A"].dedup.length = 1 :=
  ⟨rfl, by decide⟩

/-! ### Helper lemmas about the embedded routes -/

/-- The eligible pool inherits distinct ids from the people table. -/
theorem eligibleIdsNodup (db : DB) (hN : (db.people.map Person.id).Nodup) :
    (poolIds db).Nodup := by
  unfold poolIds eligible
  exact hN.sublist (List.Sublist.map Person.id (List.filter_sublist db.people))

/-- Splitting a people list by one id. -/
theorem filter_id_split (l : List Person) (x : Nat) :
    (l.filter (fun p => p.id != x)).length + (l.filter (fun p => p.id == x)).length
      = l.length := by
  induction l with
  | nil => rfl
  | cons a l ih =>
    by_cases h : a.id = x
    · have hb : (a.id == x) = true := beq_iff_eq.mpr h
      have hbn : (a.id != x) = false := by simp [bne, hb]
      simp only [List.filter_cons, hb, hbn, Bool.false_eq_true, if_false, if_true,
        List.length_cons]
      omega
    · have hb : (a.id == x) = false := beq_eq_false_iff_ne.mpr h
      have hbn : (a.id != x) = true := by simp [bne, hb]
      simp only [List.filter_cons, hb, hbn, Bool.false_eq_true, if_false, if_true,
        List.length_cons]
      omega

/-- With distinct ids, at most one person matches a given id. -/
theorem filter_id_le_one (l : List Person) (hN : (l.map Person.id).Nodup) (x : Nat) :
    (l.filter (fun p => p.id == x)).length ≤ 1 := by
  induction l with
  | nil => simp
  | cons a l ih =>
    simp only [List.map_cons, List.nodup_cons] at hN
    obtain ⟨ha, hl⟩ := hN
    by_cases h : a.id = x
    · subst h
      have : l.filter (fun p => p.id == a.id) = [] := by
        rw [List.filter_eq_nil]
        intro p hp hb
        exact ha (List.mem_map.mpr ⟨p, hp, beq_iff_eq.mp hb⟩)
      simp [List.filter_cons, this]
    · have h' : (a.id == x) = false := beq_eq_false_iff_ne.mpr h
      simp only [List.filter_cons, h', Bool.false_eq_true, if_false]
      exact ih hl

/-- A quiz request that passes the guards (three eligible players, session not
finished, remaining view nonempty) draws subject `remaining[i % len]`, stores
it as both `current_person_id` and `correct_person_id` together with its
tracks, persists the remaining view unchanged, and snapshots `total_people`
only when absent. -/
theorem quiz_success (db : DB) (s : SessionState) (i j k : Nat)
    (sh : List String → List String)
    (hN : (db.people.map Person.id).Nodup)
    (h3 : 3 ≤ (eligible db).length)
    (hsh : s.all_shown = false)
    (hsub : ∀ y ∈ remView db s, y ∈ poolIds db)
    (hne : remView db s ≠ []) :
    ∃ p : Person,
      findPerson db ((remView db s).getD (i % (remView db s).length) 0) = some p ∧
      ((remView db s).getD (i % (remView db s).length) 0) ∈ remView db s ∧
      (quiz db s i j k sh).1 =
        { s with remaining_people := some (some (remView db s)),
                 current_person_id :=
                   some ((remView db s).getD (i % (remView db s).length) 0),
                 correct_person_id :=
                   some ((remView db s).getD (i % (remView db s).length) 0),
                 current_track_ids :=
                   some (quizTracks db ((remView db s).getD (i % (remView db s).length) 0)),
                 total_people := some (s.total_people.getD db.people.length) } := by
  have hlen : 0 < (remView db s).length := List.length_pos.mpr hne
  have hi : i % (remView db s).length < (remView db s).length := Nat.mod_lt _ hlen
  set rem := remView db s with hremdef
  set x := rem.getD (i % rem.length) 0 with hxdef
  have hget : rem.get? (i % rem.length) = some (rem.get ⟨i % rem.length, hi⟩) :=
    List.get?_eq_get hi
  have hxval : x = rem.get ⟨i % rem.length, hi⟩ := by
    rw [hxdef, List.getD_eq_get?, hget]
    rfl
  have hxmem : x ∈ rem := by rw [hxval]; exact List.get_mem _ _ _
  have hrc : randomChoice rem i = some x := by
    unfold randomChoice
    rw [hget, hxval]
  have hxpool : x ∈ poolIds db := hsub x hxmem
  have hfind : (db.people.find? (fun p => p.id == x)).isSome := by
    rw [List.find?_isSome]
    obtain ⟨q, hq, hqid⟩ := List.mem_map.mp hxpool
    have : q ∈ db.people := List.mem_of_mem_filter hq
    exact ⟨q, this, beq_iff_eq.mpr hqid⟩
  obtain ⟨p, hp⟩ := Option.isSome_iff_exists.mp hfind
  have hNe : ((eligible db).map Person.id).Nodup :=
    hN.sublist (List.Sublist.map Person.id (List.filter_sublist db.people))
  have hother : 2 ≤ ((eligible db).filter (fun p => p.id != x)).length := by
    have h1 := filter_id_split (eligible db) x
    have h2 := filter_id_le_one (eligible db) hNe x
    omega
  have hs2 : (sample2 (((eligible db).filter (fun p => p.id != x)).map
      (fun p => p.name)) j k).isSome := by
    unfold sample2
    rw [List.length_map]
    rw [if_neg (by omega)]
    exact rfl
  obtain ⟨d, hd⟩ := Option.isSome_iff_exists.mp hs2
  have hempty : (eligible db).isEmpty = false :=
    List.isEmpty_eq_false.mpr (List.ne_nil_of_length_pos (by omega))
  have hnotlt : ¬ ((eligible db).length < 3) := by omega
  have hrem2 : (match s.remaining_people.getD none with
      | none => (eligible db).map (fun p => p.id)
      | some l => l) = rem := rfl
  have hp' : findPerson db x = some p := hp
  have h3f : ((eligible db).length < 3) = False := eq_false hnotlt
  refine ⟨p, hp', hxmem, ?_⟩
  simp only [quiz, hempty, Bool.false_eq_true, if_false, h3f, hsh, hrem2, hrc, hp', hd]
  cases htp : s.total_people with
  | none => simp
  | some t => simp [htp]

/-- A guess on a pending round whose subject is still in the stored remaining
list: the stats row of the subject is upserted, score and history grow by this
round, the subject is removed from remaining (switching to the stored `None`
and `all_shown` when it was the last), and the round keys are popped. -/
theorem guess_scored (db : DB) (s : SessionState) (chosen : Option String)
    (cid : Nat) (p : Person) (rem : List Nat)
    (hc : s.correct_person_id = some cid)
    (hf : findPerson db cid = some p)
    (hcur : s.current_person_id = some cid)
    (hrem : s.remaining_people = some (some rem))
    (hmem : cid ∈ rem) :
    guess db s chosen =
      (⟨db.people, db.tracks, updateStats db.person_stats cid (chosen == some p.name),
        db.leaderboard⟩,
       { s with
           score := some ⟨(s.score.getD ⟨0, 0⟩).right +
                            (if (chosen == some p.name) then 1 else 0),
                          (s.score.getD ⟨0, 0⟩).total + 1⟩,
           remaining_people := if (rem.erase cid).isEmpty then some none
                               else some (some (rem.erase cid)),
           all_shown := if (rem.erase cid).isEmpty then true else s.all_shown,
           history := some ((s.history.getD []) ++
             [⟨chosen, p.name, chosen == some p.name, s.current_track_ids.getD []⟩]),
           current_track_ids := none,
           correct_person_id := none,
           last_result := some ⟨chosen, p.name, chosen == some p.name⟩ },
       .json ⟨chosen, p.name, chosen == some p.name,
              ⟨(s.score.getD ⟨0, 0⟩).right + (if (chosen == some p.name) then 1 else 0),
               (s.score.getD ⟨0, 0⟩).total + 1⟩,
              if (rem.erase cid).isEmpty then true else s.all_shown⟩) := by
  simp only [guess, hc, hf, hrem, hcur, hmem, if_true]
  by_cases he : (rem.erase cid).isEmpty
  · simp [he]
  · simp [he]

/-- The quiz route never touches score, history, the name flag or unrelated
session data. -/
theorem quiz_score_history (db : DB) (s : SessionState) (i j k : Nat)
    (sh : List String → List String) :
    (quiz db s i j k sh).1.score = s.score ∧
    (quiz db s i j k sh).1.history = s.history ∧
    (quiz db s i j k sh).1.name_submitted = s.name_submitted ∧
    (quiz db s i j k sh).1.extra = s.extra := by
  unfold quiz
  repeat' split
  all_goals try simp_all
  all_goals repeat' split
  all_goals simp_all

/-- On any input the guess route leaves the session unchanged or appends one
history entry while bumping the score accordingly. -/
theorem guess_inv_shape (db : DB) (s : SessionState) (c : Option String) :
    (guess db s c).2.1 = s ∨
    ∃ nm tr,
      (guess db s c).2.1.score =
        some ⟨(scoreOf s).right + (if (c == some nm) then 1 else 0), (scoreOf s).total + 1⟩ ∧
      (guess db s c).2.1.history =
        some (historyOf s ++ [⟨c, nm, c == some nm, tr⟩]) := by
  unfold guess scoreOf historyOf
  cases hc : s.correct_person_id with
  | none => exact Or.inl rfl
  | some cid =>
    rcases hr : s.remaining_people with _ | (_ | rem)
    · right
      refine ⟨(match findPerson db cid with | some p => p.name | none => "Unknown"),
        s.current_track_ids.getD [], ?_, ?_⟩ <;>
        repeat' (first | split | simp_all)
    · exact Or.inl rfl
    · right
      refine ⟨(match findPerson db cid with | some p => p.name | none => "Unknown"),
        s.current_track_ids.getD [], ?_, ?_⟩ <;>
        repeat' (first | split | simp_all)

/-- The name-submission route changes at most the `name_submitted` flag of the
session. -/
theorem enter_name_session (db : DB) (s : SessionState) (b : Bool) (n : Option String) :
    (enter_name db s b n).2.1 = s ∨
    (enter_name db s b n).2.1 = { s with name_submitted := true } := by
  unfold enter_name
  split
  · exact Or.inl rfl
  · split
    · dsimp only
      split
      · exact Or.inl rfl
      · exact Or.inr rfl
    · exact Or.inl rfl

/-- The skip route changes at most the `name_submitted` flag of the session. -/
theorem skip_name_session (db : DB) (s : SessionState) :
    (skip_name db s).2.1 = s ∨
    (skip_name db s).2.1 = { s with name_submitted := true } := by
  unfold skip_name
  split <;> simp

/-- After an upsert, looking up the updated participant finds the incremented
row (or the fresh row when it was absent). -/
theorem find?_updateStats_self (rows : List StatsRow) (pid : Nat) (res : Bool) :
    (updateStats rows pid res).find? (fun r => r.person_id == pid) =
      some (match rows.find? (fun r => r.person_id == pid) with
            | some r => ⟨r.person_id, r.correct_guesses + (if res then 1 else 0),
                         r.total_guesses + 1⟩
            | none => ⟨pid, (if res then 1 else 0), 1⟩) := by
  cases h : rows.any (fun r => r.person_id == pid) with
  | true =>
    simp only [updateStats, h, if_true]
    induction rows with
    | nil => simp at h
    | cons a l ih =>
      by_cases ha : a.person_id = pid
      · simp [List.find?_cons, ha]
      · have ha' : (a.person_id == pid) = false := beq_eq_false_iff_ne.mpr ha
        have hl : l.any (fun r => r.person_id == pid) = true := by
          simpa [List.any_cons, ha'] using h
        simp only [List.map_cons, List.find?_cons, ha', Bool.false_eq_true, if_false]
        simpa [ha'] using ih hl
  | false =>
    have hnone : rows.find? (fun r => r.person_id == pid) = none := by
      rw [List.find?_eq_none]
      intro x hx hbx
      have : rows.any (fun r => r.person_id == pid) = true :=
        List.any_eq_true.mpr ⟨x, hx, hbx⟩
      rw [h] at this
      exact Bool.false_ne_true this
    simp only [updateStats, h, Bool.false_eq_true, if_false, hnone]
    rw [List.find?_append, hnone]
    simp

/-- The upsert leaves every other participant's row untouched. -/
theorem find?_updateStats_other (rows : List StatsRow) (pid : Nat) (res : Bool)
    (q : Nat) (hq : q ≠ pid) :
    (updateStats rows pid res).find? (fun r => r.person_id == q) =
      rows.find? (fun r => r.person_id == q) := by
  cases h : rows.any (fun r => r.person_id == pid) with
  | true =>
    simp only [updateStats, h, if_true]
    clear h
    induction rows with
    | nil => rfl
    | cons a l ih =>
      by_cases haq : a.person_id = q
      · have hapid : (a.person_id == pid) = false := beq_eq_false_iff_ne.mpr (by omega)
        have haq2 : (a.person_id == q) = true := beq_iff_eq.mpr haq
        simp only [List.map_cons, List.find?_cons, hapid, Bool.false_eq_true, if_false, haq2]
      · have haq' : (a.person_id == q) = false := beq_eq_false_iff_ne.mpr haq
        by_cases hapid : a.person_id = pid
        · simp only [List.map_cons, List.find?_cons, hapid, beq_self_eq_true, if_true]
          simpa [haq', show (pid == q) = false from beq_eq_false_iff_ne.mpr (Ne.symm hq)]
            using ih
        · have hapid' : (a.person_id == pid) = false := beq_eq_false_iff_ne.mpr hapid
          simp only [List.map_cons, List.find?_cons, hapid', Bool.false_eq_true, if_false, haq']
          simpa [haq'] using ih
  | false =>
    have hpidq : ((⟨pid, (if res then 1 else 0), 1⟩ : StatsRow).person_id == q) = false :=
      beq_eq_false_iff_ne.mpr (by simpa using Ne.symm hq)
    simp only [updateStats, h, Bool.false_eq_true, if_false]
    rw [List.find?_append]
    cases hf : rows.find? (fun r => r.person_id == q) <;> simp [List.find?_cons, hpidq]

/-- The upsert in `statsFor` terms: the subject's counters grow by exactly
this guess. -/
theorem statsFor_updateStats (rows : List StatsRow) (pid : Nat) (res : Bool) :
    ((updateStats rows pid res).find? (fun r => r.person_id == pid)).getD ⟨pid, 0, 0⟩ =
      ⟨pid,
       ((rows.find? (fun r => r.person_id == pid)).getD ⟨pid, 0, 0⟩).correct_guesses +
         (if res then 1 else 0),
       ((rows.find? (fun r => r.person_id == pid)).getD ⟨pid, 0, 0⟩).total_guesses + 1⟩ := by
  rw [find?_updateStats_self]
  cases hfind : rows.find? (fun r => r.person_id == pid) with
  | none => simp
  | some r =>
    have hr : r.person_id = pid := by simpa using List.find?_some hfind
    simp [hr]

/-- A fresh session satisfies the score/history coupling. -/
theorem inv_initSession : ScoreHistoryInv initSession := ⟨rfl, rfl⟩

/-- Every operation sequence preserves the score/history coupling. -/
theorem run_preserves_inv : ∀ (ops : List Op) (db : DB) (s : SessionState),
    ScoreHistoryInv s → ScoreHistoryInv (run db s ops).2 := by
  intro ops
  induction ops with
  | nil => intro db s h; exact h
  | cons op ops ih =>
    intro db s h
    rw [run]
    apply ih
    cases op with
    | opQuiz i j k sh =>
      obtain ⟨h1, h2, -, -⟩ := quiz_score_history db s i j k sh
      unfold ScoreHistoryInv scoreOf historyOf at h ⊢
      simp only [applyOp]
      rw [h1, h2]
      exact h
    | opGuess c =>
      rcases guess_inv_shape db s c with heq | ⟨nm, tr, hs, hh⟩
      · simp only [applyOp]
        rw [heq]
        exact h
      · obtain ⟨ht, hrt⟩ := h
        constructor
        · simp only [applyOp, scoreOf, historyOf, hs, hh]
          simp only [Option.getD_some, List.length_append, List.length_cons,
            List.length_nil, scoreOf, historyOf]
          simp only [scoreOf, historyOf] at ht
          omega
        · simp only [applyOp, scoreOf, historyOf, hs, hh]
          simp only [Option.getD_some, List.countP_append, List.countP_cons,
            List.countP_nil]
          simp only [scoreOf, historyOf] at hrt
          rw [hrt]
          simp
    | opEnterName b n =>
      rcases enter_name_session db s b n with heq | heq <;>
        (simp only [applyOp]; rw [heq])
      · exact h
      · exact h
    | opSkipName =>
      rcases skip_name_session db s with heq | heq <;>
        (simp only [applyOp]; rw [heq])
      · exact h
      · exact h
    | opReset => simp [applyOp, ScoreHistoryInv, scoreOf, historyOf, resetSession]
    | opFinished => exact h
    | opStoreExternal f => exact h

/-! ### Further helper lemmas (rounds, chameleon ordering, grouping) -/

/-- Removing a distinct sublist from a duplicate-free list drops its length
exactly. -/
theorem diff_length_nodup (l D : List Nat) (hl : l.Nodup) (hD : D.Nodup)
    (hsub : ∀ x ∈ D, x ∈ l) : (l.diff D).length = l.length - D.length := by
  induction D generalizing l with
  | nil => simp
  | cons d D ih =>
    simp only [List.diff_cons]
    obtain ⟨hdD, hDn⟩ := List.nodup_cons.mp hD
    have hdl : d ∈ l := hsub d (List.mem_cons_self d D)
    have hsub' : ∀ x ∈ D, x ∈ l.erase d := by
      intro y hy
      exact hl.mem_erase_iff.mpr ⟨fun hyd => hdD (hyd ▸ hy), hsub y (List.mem_cons_of_mem d hy)⟩
    have hlpos : 0 < l.length := List.length_pos.mpr (fun hnil => by simp [hnil] at hdl)
    rw [ih (l.erase d) (hl.erase d) hDn hsub', List.length_erase_of_mem hdl]
    simp only [List.length_cons]
    omega

/-- Eligibility depends only on the people and tracks tables. -/
theorem eligible_congr (db db0 : DB) (hp : db.people = db0.people)
    (ht : db.tracks = db0.tracks) : eligible db = eligible db0 := by
  unfold eligible
  simp only [hp, ht]

/-- The quiz route reads only the people and tracks tables. -/
theorem quiz_congr (db db0 : DB) (s : SessionState) (i j k : Nat)
    (sh : List String → List String) (hp : db.people = db0.people)
    (ht : db.tracks = db0.tracks) :
    quiz db s i j k sh = quiz db0 s i j k sh := by
  unfold quiz quizTracks findPerson eligible
  simp only [hp, ht]

/-- The guess route writes only the `person_stats` table. -/
theorem guess_db_fields (db : DB) (s : SessionState) (c : Option String) :
    (guess db s c).1.people = db.people ∧ (guess db s c).1.tracks = db.tracks := by
  unfold guess
  repeat' split
  all_goals simp

/-- One full round (quiz then guess) from a mid-session state: some remaining
subject `x` is drawn and scored, and the session moves to the state where `x`
has been drawn as well, with people and tracks untouched. -/
theorem c1_step (db0 db : DB) (s : SessionState) (m : Move) (D : List Nat)
    (hN : (db0.people.map Person.id).Nodup)
    (h3 : 3 ≤ (eligible db0).length)
    (hp : db.people = db0.people) (ht : db.tracks = db0.tracks)
    (hInv : RemState db0 s D) (hlt : D.length < (poolIds db0).length) :
    ∃ x,
      (quiz db s m.i m.j m.k m.sh).1.correct_person_id = some x ∧
      x ∈ (poolIds db0).diff D ∧
      (guess db (quiz db s m.i m.j m.k m.sh).1 m.chosen).1.people = db0.people ∧
      (guess db (quiz db s m.i m.j m.k m.sh).1 m.chosen).1.tracks = db0.tracks ∧
      RemState db0 (guess db (quiz db s m.i m.j m.k m.sh).1 m.chosen).2.1 (D ++ [x]) := by
  have hpool : (poolIds db0).Nodup := eligibleIdsNodup db0 hN
  obtain ⟨hDnd, hDsub, hcorr, hif⟩ := hInv
  rw [if_pos hlt] at hif
  obtain ⟨hrem_or, hshown⟩ := hif
  have hremv : remView db0 s = (poolIds db0).diff D := by
    rcases hrem_or with hstore | ⟨hDnil, hnone⟩
    · simp [remView, hstore]
    · subst hDnil
      simp [remView, hnone, List.diff_nil]
  have hdlen : ((poolIds db0).diff D).length = (poolIds db0).length - D.length :=
    diff_length_nodup _ _ hpool hDnd hDsub
  have hne : remView db0 s ≠ [] := by
    rw [hremv]
    intro hcontra
    rw [hcontra] at hdlen
    simp at hdlen
    omega
  have hsub' : ∀ y ∈ remView db0 s, y ∈ poolIds db0 := by
    rw [hremv]
    exact fun y hy => List.diff_subset _ _ hy
  obtain ⟨p, hp', hxmem, hqeq⟩ :=
    quiz_success db0 s m.i m.j m.k m.sh hN h3 hshown hsub' hne
  set x := (remView db0 s).getD (m.i % (remView db0 s).length) 0 with hxdef
  have hq : quiz db s m.i m.j m.k m.sh = quiz db0 s m.i m.j m.k m.sh :=
    quiz_congr db db0 s _ _ _ _ hp ht
  have hxmem' : x ∈ (poolIds db0).diff D := hremv ▸ hxmem
  obtain ⟨hxpool, hxnotD⟩ := (hpool.mem_diff_iff).mp hxmem'
  have hf2 : findPerson db x = some p := by
    unfold findPerson
    rw [hp]
    exact hp'
  set S1 := (quiz db0 s m.i m.j m.k m.sh).1 with hS1def
  have hc1 : S1.correct_person_id = some x := by rw [hqeq]
  have hcur1 : S1.current_person_id = some x := by rw [hqeq]
  have hrem1 : S1.remaining_people = some (some (remView db0 s)) := by rw [hqeq]
  have hsh1 : S1.all_shown = s.all_shown := by rw [hqeq]
  have hg := guess_scored db S1 m.chosen x p (remView db0 s) hc1 hf2 hcur1 hrem1 hxmem
  -- lengths of the erased remaining list
  have hmemdif : x ∈ (poolIds db0).diff D := hxmem'
  have herlen : (((poolIds db0).diff D).erase x).length =
      (poolIds db0).length - D.length - 1 := by
    rw [List.length_erase_of_mem hmemdif, hdlen]
  have hdiffapp : (poolIds db0).diff (D ++ [x]) = ((poolIds db0).diff D).erase x := by
    rw [List.diff_append, List.diff_cons, List.diff_nil]
  have hnodup' : (D ++ [x]).Nodup := by
    rw [List.nodup_append]
    exact ⟨hDnd, List.nodup_singleton x,
      fun a ha hb => hxnotD ((List.mem_singleton.mp hb) ▸ ha)⟩
  have hsubs' : ∀ y ∈ D ++ [x], y ∈ poolIds db0 := by
    intro y hy
    rcases List.mem_append.mp hy with hyD | hyx
    · exact hDsub y hyD
    · exact (List.mem_singleton.mp hyx) ▸ hxpool
  refine ⟨x, ?_, hxmem', ?_, ?_, ?_⟩
  · rw [hq, hc1]
  · rw [hq, ← hS1def, hg, hp]
  · rw [hq, ← hS1def, hg, ht]
  · rw [hq, ← hS1def, hg]
    refine ⟨hnodup', hsubs', rfl, ?_⟩
    by_cases he : (((remView db0 s).erase x)).isEmpty
    · -- last round: remaining empties, all_shown set
      have hnil : ((remView db0 s).erase x) = [] := List.isEmpty_iff.mp he
      have hDlen : D.length + 1 = (poolIds db0).length := by
        rw [hremv] at hnil
        rw [hnil] at herlen
        simp at herlen
        omega
      rw [if_neg (by simp only [List.length_append, List.length_cons, List.length_nil]; omega)]
      refine ⟨?_, ?_, by simp only [List.length_append, List.length_cons, List.length_nil]; omega⟩
      · simp only [he, if_true]
      · simp only [he, if_true]
    · -- more rounds remain
      have hnnil : ((remView db0 s).erase x) ≠ [] := fun hc => he (by simp [hc])
      have hpos : 0 < (((poolIds db0).diff D).erase x).length := by
        rw [← hremv]
        exact List.length_pos.mpr hnnil
      rw [if_pos (by simp only [List.length_append, List.length_cons, List.length_nil]; omega)]
      constructor
      · left
        simp only [he, Bool.false_eq_true, if_false]
        rw [hdiffapp, ← hremv]
      · simp only [he, Bool.false_eq_true, if_false, hsh1, hshown]

/-- Running any number of further rounds keeps the session in `RemState`, one
new distinct subject per round. -/
theorem c1_aux (db0 : DB) (hN : (db0.people.map Person.id).Nodup)
    (h3 : 3 ≤ (eligible db0).length) :
    ∀ (ms : List Move) (db : DB) (s : SessionState) (D : List Nat),
      db.people = db0.people → db.tracks = db0.tracks →
      RemState db0 s D → D.length + ms.length ≤ (poolIds db0).length →
      (roundSubjects db s ms).length = ms.length ∧
      (∀ t, t ≤ ms.length →
        RemState db0 (runRounds db s (ms.take t)).2
          (D ++ (roundSubjects db s ms).take t)) := by
  intro ms
  induction ms with
  | nil =>
    intro db s D hp ht hInv hbound
    refine ⟨rfl, ?_⟩
    intro t htle
    have ht0 : t = 0 := Nat.le_zero.mp htle
    subst ht0
    simpa [runRounds, roundSubjects] using hInv
  | cons m ms ih =>
    intro db s D hp ht hInv hbound
    have hlt : D.length < (poolIds db0).length := by
      simp only [List.length_cons] at hbound
      omega
    obtain ⟨x, hsubj, hxmem, hp2, ht2, hInv2⟩ :=
      c1_step db0 db s m D hN h3 hp ht hInv hlt
    have hbound2 : (D ++ [x]).length + ms.length ≤ (poolIds db0).length := by
      simp only [List.length_append, List.length_cons, List.length_nil,
        List.length_cons] at hbound ⊢
      omega
    obtain ⟨ihlen, ihall⟩ :=
      ih (guess db (quiz db s m.i m.j m.k m.sh).1 m.chosen).1
        (guess db (quiz db s m.i m.j m.k m.sh).1 m.chosen).2.1 (D ++ [x]) hp2 ht2
        hInv2 hbound2
    have hsubjs : roundSubjects db s (m :: ms) =
        x :: roundSubjects (guess db (quiz db s m.i m.j m.k m.sh).1 m.chosen).1
          (guess db (quiz db s m.i m.j m.k m.sh).1 m.chosen).2.1 ms := by
      rw [roundSubjects, hsubj]
      rfl
    constructor
    · rw [hsubjs]
      simp only [List.length_cons, ihlen]
    · intro t htle
      cases t with
      | zero =>
        simpa [runRounds, roundSubjects] using
          (⟨hInv.1, hInv.2.1, hInv.2.2.1, hInv.2.2.2⟩ : RemState db0 s D)
      | succ t' =>
        have ht' : t' ≤ ms.length := by
          simp only [List.length_cons] at htle
          omega
        have := ihall t' ht'
        rw [hsubjs]
        simp only [List.take_succ_cons, runRounds]
        rw [show D ++ x :: (roundSubjects (guess db (quiz db s m.i m.j m.k m.sh).1
            m.chosen).1 (guess db (quiz db s m.i m.j m.k m.sh).1 m.chosen).2.1
            ms).take t' = (D ++ [x]) ++ (roundSubjects (guess db (quiz db s m.i
            m.j m.k m.sh).1 m.chosen).1 (guess db (quiz db s m.i m.j m.k
            m.sh).1 m.chosen).2.1 ms).take t' by simp]
        exact this

/-- The chameleon ordering as a proposition. -/
theorem chamBetter_iff (a b : ChamRow) : chamBetter a b = true ↔
    (a.success_rate10 < b.success_rate10 ∨
     (a.success_rate10 = b.success_rate10 ∧ b.total_guesses < a.total_guesses)) := by
  unfold chamBetter
  simp [Bool.or_eq_true, Bool.and_eq_true, decide_eq_true_eq, beq_iff_eq]

/-- No row sorts strictly before itself. -/
theorem chamBetter_irrefl (a : ChamRow) : chamBetter a a = false := by
  rw [← Bool.not_eq_true, chamBetter_iff]
  omega

/-- "Not strictly before" is transitive. -/
theorem chamBetter_false_trans (a b c : ChamRow) (h1 : chamBetter a b = false)
    (h2 : chamBetter b c = false) : chamBetter a c = false := by
  rw [← Bool.not_eq_true, chamBetter_iff] at h1 h2 ⊢
  omega

/-- A row no better than `c` stays no better than `c` after the running best
improves past it. -/
theorem chamBetter_true_false (y b c : ChamRow) (h1 : chamBetter y b = true)
    (h2 : chamBetter y c = false) : chamBetter b c = false := by
  rw [chamBetter_iff] at h1
  rw [← Bool.not_eq_true, chamBetter_iff] at h2 ⊢
  omega

/-- The `LIMIT 1` fold returns a candidate no other candidate sorts strictly
before. -/
theorem cham_fold_min (l : List ChamRow) (b : ChamRow) :
    ∃ c, (l.foldl (fun best cand => match best with
        | none => some cand
        | some b' => if chamBetter cand b' then some cand else some b') (some b)) = some c ∧
      (c = b ∨ c ∈ l) ∧ chamBetter b c = false ∧ ∀ y ∈ l, chamBetter y c = false := by
  induction l generalizing b with
  | nil => exact ⟨b, rfl, Or.inl rfl, chamBetter_irrefl b, by simp⟩
  | cons y l ih =>
    simp only [List.foldl_cons]
    by_cases hb : chamBetter y b = true
    · rw [if_pos hb]
      obtain ⟨c, hc, hmem, hcb, hall⟩ := ih y
      refine ⟨c, hc, ?_, ?_, ?_⟩
      · rcases hmem with hcy | hcl
        · exact Or.inr (hcy ▸ List.mem_cons_self y l)
        · exact Or.inr (List.mem_cons_of_mem y hcl)
      · exact chamBetter_true_false y b c hb hcb
      · intro z hz
        rcases List.mem_cons.mp hz with hzy | hzl
        · exact hzy ▸ hcb
        · exact hall z hzl
    · have hb' : chamBetter y b = false := Bool.not_eq_true _ |>.mp hb
      rw [if_neg hb]
      obtain ⟨c, hc, hmem, hcb, hall⟩ := ih b
      refine ⟨c, hc, ?_, hcb, ?_⟩
      · rcases hmem with hcy | hcl
        · exact Or.inl hcy
        · exact Or.inr (List.mem_cons_of_mem y hcl)
      · intro z hz
        rcases List.mem_cons.mp hz with hzy | hzl
        · exact hzy ▸ chamBetter_false_trans y b c hb' hcb
        · exact hall z hzl

/-- Every chameleon candidate meets the three-guess threshold. -/
theorem cham_threshold (db : DB) : ∀ r ∈ chamCandidates db, 3 ≤ r.total_guesses := by
  intro r hr
  unfold chamCandidates at hr
  obtain ⟨a, ha, hfa⟩ := List.mem_filterMap.mp hr
  have ha3 : 3 ≤ a.total_guesses := by
    have := List.mem_filter.mp ha
    simpa using this.2
  cases hfp : findPerson db a.person_id with
  | none => simp [hfp] at hfa
  | some p =>
    simp only [hfp, Option.map_some', Option.some.injEq] at hfa
    rw [← hfa]
    exact ha3

/-- Insertion permutes. -/
theorem insertByDesc_perm {α : Type} (key : α → Nat) (x : α) (l : List α) :
    List.Perm (insertByDesc key x l) (x :: l) := by
  induction l with
  | nil => exact List.Perm.refl _
  | cons y ys ih =>
    unfold insertByDesc
    split
    · exact (ih.cons y).trans (List.Perm.swap x y ys)
    · exact List.Perm.refl _

/-- The descending sort permutes its input. -/
theorem sortByDesc_perm {α : Type} (key : α → Nat) (l : List α) :
    List.Perm (sortByDesc key l) l := by
  unfold sortByDesc
  suffices h : ∀ (l : List α) (acc : List α),
      List.Perm (l.foldl (fun acc x => insertByDesc key x acc) acc) (acc ++ l) by
    simpa using h l []
  intro l
  induction l with
  | nil => intro acc; simp
  | cons x xs ih =>
    intro acc
    simp only [List.foldl_cons]
    exact ((ih _).trans ((insertByDesc_perm key x acc).append_right xs)).trans
      List.perm_middle.symm

/-- Insertion preserves descending order. -/
theorem insertByDesc_sorted {α : Type} (key : α → Nat) (x : α) (l : List α)
    (h : List.Pairwise (fun a b => key b ≤ key a) l) :
    List.Pairwise (fun a b => key b ≤ key a) (insertByDesc key x l) := by
  induction l with
  | nil => simp [insertByDesc]
  | cons y ys ih =>
    unfold insertByDesc
    obtain ⟨hy, hys⟩ := List.pairwise_cons.mp h
    split
    · rename_i hxy
      rw [List.pairwise_cons]
      refine ⟨?_, ih hys⟩
      intro z hz
      rcases List.mem_cons.mp (((insertByDesc_perm key x ys).mem_iff).mp hz) with hzx | hzys
      · subst hzx
        exact hxy
      · exact hy z hzys
    · rename_i hxy
      rw [List.pairwise_cons]
      refine ⟨?_, h⟩
      intro z hz
      rcases List.mem_cons.mp hz with hzy | hzys
      · subst hzy; omega
      · have := hy z hzys
        omega

/-- The descending sort really sorts. -/
theorem sortByDesc_sorted {α : Type} (key : α → Nat) (l : List α) :
    List.Pairwise (fun a b => key b ≤ key a) (sortByDesc key l) := by
  unfold sortByDesc
  suffices h : ∀ (l : List α) (acc : List α),
      List.Pairwise (fun a b => key b ≤ key a) acc →
      List.Pairwise (fun a b => key b ≤ key a)
        (l.foldl (fun acc x => insertByDesc key x acc) acc) by
    exact h l [] List.Pairwise.nil
  intro l
  induction l with
  | nil => intro acc h; exact h
  | cons x xs ih =>
    intro acc h
    simp only [List.foldl_cons]
    exact ih _ (insertByDesc_sorted key x acc h)

/-- The grouping dict: keys are distinct, each group collects exactly the
owner names of the rows with its track id (in row order), and the keys are
exactly the track ids occurring in the rows. -/
theorem groupOwners_spec (rows : List (String × String)) :
    ((groupOwners rows).map Prod.fst).Nodup ∧
    (∀ g ∈ groupOwners rows,
      g.2 = (rows.filter (fun r => r.1 == g.1)).map Prod.snd) ∧
    (∀ tid, (∃ r ∈ rows, r.1 = tid) ↔ ∃ g ∈ groupOwners rows, g.1 = tid) := by
  unfold groupOwners
  suffices h : ∀ (rs : List (String × String)) (acc : List (String × List String))
      (processed : List (String × String)),
      (acc.map Prod.fst).Nodup →
      (∀ g ∈ acc, g.2 = (processed.filter (fun r => r.1 == g.1)).map Prod.snd) →
      (∀ tid, (∃ r ∈ processed, r.1 = tid) ↔ ∃ g ∈ acc, g.1 = tid) →
      (((rs.foldl (fun acc r =>
          if acc.any (fun g => g.1 == r.1) then
            acc.map (fun g => if g.1 == r.1 then (g.1, g.2 ++ [r.2]) else g)
          else acc ++ [(r.1, [r.2])]) acc).map Prod.fst).Nodup ∧
        (∀ g ∈ rs.foldl (fun acc r =>
            if acc.any (fun g => g.1 == r.1) then
              acc.map (fun g => if g.1 == r.1 then (g.1, g.2 ++ [r.2]) else g)
            else acc ++ [(r.1, [r.2])]) acc,
          g.2 = ((processed ++ rs).filter (fun r => r.1 == g.1)).map Prod.snd) ∧
        (∀ tid, (∃ r ∈ processed ++ rs, r.1 = tid) ↔
          ∃ g ∈ rs.foldl (fun acc r =>
            if acc.any (fun g => g.1 == r.1) then
              acc.map (fun g => if g.1 == r.1 then (g.1, g.2 ++ [r.2]) else g)
            else acc ++ [(r.1, [r.2])]) acc, g.1 = tid)) by
    have := h rows [] [] List.nodup_nil (by simp) (by simp)
    simpa using this
  intro rs
  induction rs with
  | nil =>
    intro acc processed h1 h2 h3
    simp only [List.foldl_nil, List.append_nil]
    exact ⟨h1, h2, h3⟩
  | cons r rs ih =>
    intro acc processed h1 h2 h3
    simp only [List.foldl_cons]
    have hmain : ∀ (acc' : List (String × List String)),
        acc' = (if acc.any (fun g => g.1 == r.1) then
            acc.map (fun g => if g.1 == r.1 then (g.1, g.2 ++ [r.2]) else g)
          else acc ++ [(r.1, [r.2])]) →
        ((acc'.map Prod.fst).Nodup ∧
         (∀ g ∈ acc', g.2 = ((processed ++ [r]).filter (fun q => q.1 == g.1)).map Prod.snd) ∧
         (∀ tid, (∃ q ∈ processed ++ [r], q.1 = tid) ↔ ∃ g ∈ acc', g.1 = tid)) := by
      intro acc' hacc'
      by_cases hany : acc.any (fun g => g.1 == r.1) = true
      · rw [if_pos hany] at hacc'
        subst hacc'
        have hfst : ∀ g : String × List String,
            ((if (g.1 == r.1) = true then (g.1, g.2 ++ [r.2]) else g)).1 = g.1 := by
          intro g
          split <;> rfl
        refine ⟨?_, ?_, ?_⟩
        · have : (acc.map (fun g => if g.1 == r.1 then (g.1, g.2 ++ [r.2]) else g)).map
              Prod.fst = acc.map Prod.fst := by
            rw [List.map_map]
            apply List.map_congr_left
            intro g hg
            exact hfst g
          rw [this]
          exact h1
        · intro g' hg'
          obtain ⟨g, hg, hgeq⟩ := List.mem_map.mp hg'
          by_cases hgr : (g.1 == r.1) = true
          · rw [if_pos hgr] at hgeq
            have hr1 : r.1 = g.1 := (beq_iff_eq.mp hgr).symm
            subst hgeq
            dsimp only
            have hfz : (r.1 == g.1) = true := beq_iff_eq.mpr hr1
            rw [List.filter_append, List.map_append]
            simp only [List.filter_cons, List.filter_nil, hfz, if_true,
              List.map_cons, List.map_nil]
            rw [← h2 g hg]
          · rw [if_neg hgr] at hgeq
            subst hgeq
            have hfz : (r.1 == g.1) = false := by
              rw [beq_eq_false_iff_ne]
              intro hcontra
              exact hgr (beq_iff_eq.mpr hcontra.symm)
            rw [List.filter_append, List.map_append]
            simp only [List.filter_cons, List.filter_nil, hfz, Bool.false_eq_true,
              if_false, List.map_nil, List.append_nil]
            exact h2 g hg
        · intro tid
          have hkeys : ∀ g ∈ acc.map (fun g => if g.1 == r.1 then (g.1, g.2 ++ [r.2]) else g),
              ∃ g0 ∈ acc, g0.1 = g.1 := by
            intro g hg
            obtain ⟨g0, hg0, hgeq⟩ := List.mem_map.mp hg
            exact ⟨g0, hg0, (hfst g0).symm.trans (congrArg Prod.fst hgeq)⟩
          have hkeys2 : ∀ g0 ∈ acc,
              ∃ g ∈ acc.map (fun g => if g.1 == r.1 then (g.1, g.2 ++ [r.2]) else g),
              g.1 = g0.1 := by
            intro g0 hg0
            exact ⟨_, List.mem_map_of_mem _ hg0, hfst g0⟩
          constructor
          · intro ⟨q, hq, hqt⟩
            rcases List.mem_append.mp hq with hqp | hqr
            · obtain ⟨g0, hg0, hg0t⟩ := (h3 tid).mp ⟨q, hqp, hqt⟩
              obtain ⟨g, hg, hgt⟩ := hkeys2 g0 hg0
              exact ⟨g, hg, hgt.trans hg0t⟩
            · have hqr' : q = r := List.mem_singleton.mp hqr
              subst hqr'
              obtain ⟨g0, hg0, hg0r⟩ := List.any_eq_true.mp hany
              obtain ⟨g, hg, hgt⟩ := hkeys2 g0 hg0
              exact ⟨g, hg, hgt.trans ((beq_iff_eq.mp hg0r).trans hqt)⟩
          · intro ⟨g, hg, hgt⟩
            obtain ⟨g0, hg0, hg0t⟩ := hkeys g hg
            obtain ⟨q, hq, hqt⟩ := (h3 tid).mpr ⟨g0, hg0, hg0t.trans hgt⟩
            exact ⟨q, List.mem_append.mpr (Or.inl hq), hqt⟩
      · rw [if_neg hany] at hacc'
        subst hacc'
        have hnotin : ∀ g ∈ acc, (g.1 == r.1) = false := by
          intro g hg
          cases hgr : (g.1 == r.1) with
          | false => rfl
          | true => exact absurd (List.any_eq_true.mpr ⟨g, hg, hgr⟩) hany
        have hnorow : ∀ q ∈ processed, (q.1 == r.1) = false := by
          intro q hq
          cases hqr : (q.1 == r.1) with
          | false => rfl
          | true =>
            obtain ⟨g, hg, hgt⟩ := (h3 r.1).mp ⟨q, hq, beq_iff_eq.mp hqr⟩
            have hx : (acc.any fun g => g.1 == r.1) = true :=
              List.any_eq_true.mpr ⟨g, hg, beq_iff_eq.mpr hgt⟩
            exact absurd hx hany
        refine ⟨?_, ?_, ?_⟩
        · rw [List.map_append]
          rw [List.nodup_append]
          refine ⟨h1, by simp, ?_⟩
          intro a ha hb
          simp only [List.map_cons, List.map_nil, List.mem_singleton] at hb
          subst hb
          obtain ⟨g, hg, hgt⟩ := List.mem_map.mp ha
          exact absurd (beq_iff_eq.mpr hgt) (by rw [hnotin g hg]; simp)
        · intro g hg
          rcases List.mem_append.mp hg with hgacc | hgnew
          · have hfz : (r.1 == g.1) = false := by
              rw [beq_eq_false_iff_ne]
              intro hcontra
              have := hnotin g hgacc
              rw [beq_iff_eq.mpr hcontra.symm] at this
              simp at this
            rw [List.filter_append, List.map_append]
            simp only [List.filter_cons, List.filter_nil, hfz, Bool.false_eq_true,
              if_false, List.map_nil, List.append_nil]
            exact h2 g hgacc
          · have hgr : g = (r.1, [r.2]) := List.mem_singleton.mp hgnew
            subst hgr
            have hempty : processed.filter (fun q => q.1 == r.1) = [] := by
              rw [List.filter_eq_nil]
              intro q hq
              rw [hnorow q hq]
              simp
            rw [List.filter_append]
            simp only [hempty, List.filter_cons, List.filter_nil, beq_self_eq_true,
              if_true, List.nil_append]
            rfl
        · intro tid
          constructor
          · intro ⟨q, hq, hqt⟩
            rcases List.mem_append.mp hq with hqp | hqr
            · obtain ⟨g, hg, hgt⟩ := (h3 tid).mp ⟨q, hqp, hqt⟩
              exact ⟨g, List.mem_append.mpr (Or.inl hg), hgt⟩
            · have : q = r := List.mem_singleton.mp hqr
              subst this
              exact ⟨(q.1, [q.2]), List.mem_append.mpr (Or.inr (by simp)), hqt⟩
          · intro ⟨g, hg, hgt⟩
            rcases List.mem_append.mp hg with hgacc | hgnew
            · obtain ⟨q, hq, hqt⟩ := (h3 tid).mpr ⟨g, hgacc, hgt⟩
              exact ⟨q, List.mem_append.mpr (Or.inl hq), hqt⟩
            · have : g = (r.1, [r.2]) := List.mem_singleton.mp hgnew
              subst this
              exact ⟨r, List.mem_append.mpr (Or.inr (by simp)), hgt⟩
    obtain ⟨k1, k2, k3⟩ := hmain _ rfl
    have := ih _ (processed ++ [r]) k1 k2 k3
    rw [List.append_assoc] at this
    simpa using this



/-! ### Claim theorems (continued) -/

/-- C1: starting from a fresh session against a fixed store with distinct
participant ids and at least three eligible players, every run of scored
rounds draws pairwise-distinct subjects from the eligible pool; after `t`
rounds the session is in `RemState` for the first `t` subjects (so the
remaining set is the pool minus exactly the drawn subjects, each scored guess
having removed exactly its subject, and `all_shown` holds exactly when the
remaining set has emptied); `all_shown` becomes true exactly after as many
scored rounds as there were eligible participants at session start. -/
theorem c1_scored_rounds (db : DB) (ms : List Move)
    (hN : (db.people.map Person.id).Nodup)
    (h3 : 3 ≤ (eligible db).length)
    (hms : ms.length ≤ (poolIds db).length) :
    (roundSubjects db initSession ms).length = ms.length ∧
    (roundSubjects db initSession ms).Nodup ∧
    (∀ x ∈ roundSubjects db initSession ms, x ∈ poolIds db) ∧
    (∀ t, t ≤ ms.length →
      RemState db (runRounds db initSession (ms.take t)).2
        ((roundSubjects db initSession ms).take t)) ∧
    ((runRounds db initSession ms).2.all_shown = true ↔
      ms.length = (poolIds db).length) := by
  have hnpos : 0 < (poolIds db).length := by
    unfold poolIds
    rw [List.length_map]
    omega
  have hInit : RemState db initSession [] := by
    refine ⟨List.nodup_nil, by simp, rfl, ?_⟩
    rw [if_pos (by simpa using hnpos)]
    exact ⟨Or.inr ⟨rfl, rfl⟩, rfl⟩
  obtain ⟨hlen, hall⟩ :=
    c1_aux db hN h3 ms db initSession [] rfl rfl hInit (by simpa using hms)
  have htake : (roundSubjects db initSession ms).take ms.length =
      roundSubjects db initSession ms := by
    rw [← hlen]
    exact List.take_length _
  have hfull := hall ms.length le_rfl
  rw [List.take_length, htake, List.nil_append] at hfull
  obtain ⟨hnd, hsub, hcorr, hif⟩ := hfull
  refine ⟨hlen, hnd, hsub, fun t ht => by simpa using hall t ht, ?_⟩
  by_cases hlt2 : ms.length < (poolIds db).length
  · rw [hlen] at hif
    rw [if_pos hlt2] at hif
    rw [hif.2]
    constructor
    · intro hcontra
      exact absurd hcontra (by simp)
    · intro heq
      omega
  · have heq : ms.length = (poolIds db).length := by omega
    rw [hlen, if_neg (by omega)] at hif
    rw [hif.2.1]
    simp [heq]

/-- C1 witness: the four-player store run for four rounds. -/
theorem c1_scored_rounds_witness :
    (roundSubjects dbFour initSession moves4).length = moves4.length ∧
    (roundSubjects dbFour initSession moves4).Nodup ∧
    (∀ x ∈ roundSubjects dbFour initSession moves4, x ∈ poolIds dbFour) ∧
    (∀ t, t ≤ moves4.length →
      RemState dbFour (runRounds dbFour initSession (moves4.take t)).2
        ((roundSubjects dbFour initSession moves4).take t)) ∧
    ((runRounds dbFour initSession moves4).2.all_shown = true ↔
      moves4.length = (poolIds dbFour).length) :=
  c1_scored_rounds dbFour moves4 (by decide) (by decide) (by decide)

/-- C2 amended: re-requesting a round while one is pending performs a fresh
draw: the new subject is `remaining[i % len]` for the new draw oracle `i`
(overwriting the pending `correct_person_id` and `current_track_ids`), while
the remaining set itself is unchanged; the previous subject and choices are
returned only if the new draw happens to coincide. -/
theorem c2_amended_redraw (db : DB) (s : SessionState) (i j k : Nat)
    (sh : List String → List String) (cid : Nat)
    (hN : (db.people.map Person.id).Nodup)
    (h3 : 3 ≤ (eligible db).length)
    (hsh : s.all_shown = false)
    (hpend : s.correct_person_id = some cid)
    (hsub : ∀ y ∈ remView db s, y ∈ poolIds db)
    (hne : remView db s ≠ []) :
    (quiz db s i j k sh).1.correct_person_id =
      some ((remView db s).getD (i % (remView db s).length) 0) ∧
    (quiz db s i j k sh).1.remaining_people = some (some (remView db s)) ∧
    ((remView db s).getD (i % (remView db s).length) 0) ∈ remView db s ∧
    (quiz db s i j k sh).1.current_track_ids =
      some (quizTracks db ((remView db s).getD (i % (remView db s).length) 0)) := by
  obtain ⟨p, hp, hmem, heq⟩ := quiz_success db s i j k sh hN h3 hsh hsub hne
  rw [heq]
  exact ⟨rfl, rfl, hmem, rfl⟩

/-- C2 amended witness: re-requesting on the pending session of `dbFour`. -/
theorem c2_amended_redraw_witness :
    (quiz dbFour sReentry 1 2 1 (fun l => l)).1.correct_person_id =
      some ((remView dbFour sReentry).getD
        (1 % (remView dbFour sReentry).length) 0) ∧
    (quiz dbFour sReentry 1 2 1 (fun l => l)).1.remaining_people =
      some (some (remView dbFour sReentry)) ∧
    ((remView dbFour sReentry).getD (1 % (remView dbFour sReentry).length) 0) ∈
      remView dbFour sReentry ∧
    (quiz dbFour sReentry 1 2 1 (fun l => l)).1.current_track_ids =
      some (quizTracks dbFour ((remView dbFour sReentry).getD
        (1 % (remView dbFour sReentry).length) 0)) :=
  c2_amended_redraw dbFour sReentry 1 2 1 (fun l => l) 1 (by decide) (by decide)
    rfl rfl (by decide) (by decide)

/-- C3 amended: only the skip route is guarded by `name_submitted`.  A valid
name POST while `all_shown` always appends exactly one leaderboard row
(regardless of `name_submitted`); skip never writes the store; so submit
followed by skip yields exactly one entry, but a second submit would append
again. -/
theorem c3_amended_one_entry (db : DB) (s : SessionState) (nm : String)
    (hall : s.all_shown = true) (hnm : pyStrip nm ≠ "") :
    (enter_name db s true (some nm)).1.leaderboard.length = db.leaderboard.length + 1 ∧
    (∀ db₂ s₂, (skip_name db₂ s₂).1 = db₂) ∧
    (skip_name (enter_name db s true (some nm)).1
        (enter_name db s true (some nm)).2.1).1.leaderboard.length =
      db.leaderboard.length + 1 := by
  have hskip : ∀ db₂ s₂, (skip_name db₂ s₂).1 = db₂ := by
    intro db₂ s₂
    unfold skip_name
    split <;> rfl
  have hbeq : (pyStrip nm == "") = false := beq_eq_false_iff_ne.mpr hnm
  have hone : (enter_name db s true (some nm)).1.leaderboard.length =
      db.leaderboard.length + 1 := by
    unfold enter_name
    simp [hall, hbeq]
  exact ⟨hone, hskip, by rw [hskip]; exact hone⟩

/-- C3 amended witness: one submit then one skip on a finished session. -/
theorem c3_amended_one_entry_witness :
    (enter_name dbEmpty sFinished12 true (some "Al")).1.leaderboard.length =
      dbEmpty.leaderboard.length + 1 ∧
    (∀ db₂ s₂, (skip_name db₂ s₂).1 = db₂) ∧
    (skip_name (enter_name dbEmpty sFinished12 true (some "Al")).1
        (enter_name dbEmpty sFinished12 true (some "Al")).2.1).1.leaderboard.length =
      dbEmpty.leaderboard.length + 1 :=
  c3_amended_one_entry dbEmpty sFinished12 "Al" rfl (by decide)

/-- C6 amended: the query returns none exactly when no stats row reaches the
three-guess threshold; any returned row is a candidate that no other candidate
beats under the CODE ordering — minimum `ROUND(rate, 1)`-rounded success rate,
ties broken by higher `total_guesses` (not the exact-ratio minimum); the
spec example X (1/4) vs Y (2/3) vs Z (below threshold) still selects X. -/
theorem c6_amended_rounded_chameleon (db : DB) :
    (chameleon db = none ↔ chamCandidates db = []) ∧
    (∀ c, chameleon db = some c →
      (c ∈ chamCandidates db ∧ ∀ y ∈ chamCandidates db, chamBetter y c = false)) ∧
    (∀ r ∈ chamCandidates db, 3 ≤ r.total_guesses) ∧
    chameleon dbChamXYZ = some ⟨"X", 1, 4, 250⟩ := by
  refine ⟨?_, ?_, cham_threshold db, rfl⟩
  · unfold chameleon
    cases hcand : chamCandidates db with
    | nil => simp
    | cons y t =>
      simp only [List.foldl_cons]
      obtain ⟨c, hc, -, -, -⟩ := cham_fold_min t y
      rw [hc]
      simp
  · intro c hcham
    unfold chameleon at hcham
    cases hcand : chamCandidates db with
    | nil => rw [hcand] at hcham; simp at hcham
    | cons y t =>
      rw [hcand] at hcham
      simp only [List.foldl_cons] at hcham
      obtain ⟨c', hc', hmem, hyb, hall⟩ := cham_fold_min t y
      rw [hc'] at hcham
      have hcc : c = c' := by
        injection hcham with h
        exact h.symm
      subst hcc
      constructor
      · rcases hmem with hcy | hcl
        · exact hcy ▸ List.mem_cons_self y t
        · exact List.mem_cons_of_mem y hcl
      · intro z hz
        rcases List.mem_cons.mp hz with hzy | hzl
        · exact hzy ▸ hyb
        · exact hall z hzl

/-- C6 amended witness: the X/Y/Z example row is a candidate that nothing
beats. -/
theorem c6_amended_rounded_chameleon_witness :
    (⟨"X", 1, 4, 250⟩ : ChamRow) ∈ chamCandidates dbChamXYZ ∧
    ∀ y ∈ chamCandidates dbChamXYZ, chamBetter y ⟨"X", 1, 4, 250⟩ = false :=
  (c6_amended_rounded_chameleon dbChamXYZ).2.1 ⟨"X", 1, 4, 250⟩ rfl

/-- C7 amended: the shared-track report retains exactly the groups with at
least two owner RECORDS (names with multiplicity, not distinct names), sorted
by record count descending; each group lists exactly the owner names of the
rows with its track id; the result is a pure function of the store (identical
for every session); and the spec example (track "abc" owned by A and B, "xyz"
only by A) yields exactly the "abc" group. -/
theorem c7_amended_shared_tracks (db : DB) :
    (∀ g ∈ sharedTracks db, 2 ≤ g.2.length) ∧
    List.Pairwise (fun a b => b.2.length ≤ a.2.length) (sharedTracks db) ∧
    (∀ g, g ∈ sharedTracks db ↔
      (g ∈ groupOwners (trackOwnerRows db) ∧ 2 ≤ g.2.length)) ∧
    (∀ g ∈ sharedTracks db,
      g.2 = ((trackOwnerRows db).filter (fun r => r.1 == g.1)).map Prod.snd) ∧
    (∀ s s', (finished db s).shared_tracks = (finished db s').shared_tracks) ∧
    sharedTracks dbSharedEx = [("abc", ["A", "B"])] := by
  have hmem : ∀ g, g ∈ sharedTracks db ↔
      (g ∈ groupOwners (trackOwnerRows db) ∧ 2 ≤ g.2.length) := by
    intro g
    unfold sharedTracks
    rw [(sortByDesc_perm (fun g => g.2.length)
      ((groupOwners (trackOwnerRows db)).filter (fun g => 1 < g.2.length))).mem_iff,
      List.mem_filter]
    constructor
    · rintro ⟨h1, h2⟩
      exact ⟨h1, by simpa using h2⟩
    · rintro ⟨h1, h2⟩
      exact ⟨h1, by simpa using h2⟩
  refine ⟨fun g hg => ((hmem g).mp hg).2, sortByDesc_sorted _ _, hmem, ?_,
    fun s s' => rfl, rfl⟩
  intro g hg
  exact (groupOwners_spec (trackOwnerRows db)).2.1 g ((hmem g).mp hg).1

/-- C7 amended witness: the "abc" group of the example has two owner
records. -/
theorem c7_amended_shared_tracks_witness :
    2 ≤ (("abc", ["A", "B"]) : String × List String).2.length :=
  (c7_amended_shared_tracks dbSharedEx).1 ("abc", ["A", "B"]) (by decide)

/-- C9: in every reachable session state `score.total` equals the history
length and `score.right` counts the right entries; a guess on a pending round
appends exactly one entry while incrementing `score.total` by one (and
`score.right` by the entry's correctness); and no operation rewrites existing
history entries — each either extends the history or (reset) empties it. -/
theorem c9_score_history_invariant :
    (∀ s, ReachableSession s → ScoreHistoryInv s) ∧
    (∀ db s c, roundPendingOK s →
      ∃ e : HistEntry,
        (guess db s c).2.1.history = some (historyOf s ++ [e]) ∧
        (guess db s c).2.1.score =
          some ⟨(scoreOf s).right + (if e.is_right then 1 else 0),
                (scoreOf s).total + 1⟩) ∧
    (∀ db s op,
      (∃ t, historyOf (applyOp db s op).2 = historyOf s ++ t) ∨
        historyOf (applyOp db s op).2 = []) := by
  refine ⟨?_, ?_, ?_⟩
  · rintro s ⟨db0, ops, hrun⟩
    have := run_preserves_inv ops db0 initSession inv_initSession
    rwa [hrun] at this
  · intro db s c hpend
    obtain ⟨cid, hc⟩ := Option.isSome_iff_exists.mp hpend.1
    have hc2 := hpend.2
    refine ⟨⟨c, (match findPerson db cid with | some p => p.name | none => "Unknown"),
      c == some (match findPerson db cid with | some p => p.name | none => "Unknown"),
      s.current_track_ids.getD []⟩, ?_, ?_⟩ <;>
      simp only [guess, hc] <;>
      rcases hr : s.remaining_people with _ | (_ | rem)
    · cases hf : findPerson db cid <;> (repeat' split) <;> simp_all [scoreOf, historyOf]
    · exact absurd hr hc2
    · cases hf : findPerson db cid <;> (repeat' split) <;> simp_all [scoreOf, historyOf]
    · cases hf : findPerson db cid <;> (repeat' split) <;> simp_all [scoreOf, historyOf]
    · exact absurd hr hc2
    · cases hf : findPerson db cid <;> (repeat' split) <;> simp_all [scoreOf, historyOf]
  · intro db s op
    cases op with
    | opQuiz i j k sh =>
      left
      obtain ⟨-, h2, -, -⟩ := quiz_score_history db s i j k sh
      exact ⟨[], by simp only [applyOp, historyOf, h2, List.append_nil]⟩
    | opGuess c =>
      rcases guess_inv_shape db s c with heq | ⟨nm, tr, -, hh⟩
      · left
        exact ⟨[], by simp only [applyOp, historyOf, heq, List.append_nil]⟩
      · left
        refine ⟨[⟨c, nm, c == some nm, tr⟩], ?_⟩
        simp only [applyOp, historyOf, hh]
        simp [historyOf]
    | opEnterName b n =>
      left
      rcases enter_name_session db s b n with heq | heq <;>
        exact ⟨[], by simp only [applyOp, historyOf, heq, List.append_nil]⟩
    | opSkipName =>
      left
      rcases skip_name_session db s with heq | heq <;>
        exact ⟨[], by simp only [applyOp, historyOf, heq, List.append_nil]⟩
    | opReset => right; rfl
    | opFinished => left; exact ⟨[], by simp [applyOp, historyOf]⟩
    | opStoreExternal f => left; exact ⟨[], by simp [applyOp, historyOf]⟩

/-- C9 witness: the invariant on the fresh session (reachable by the empty
run), one scored guess on a pending round, and one skip operation. -/
theorem c9_score_history_invariant_witness :
    ScoreHistoryInv initSession ∧
    (∃ e : HistEntry,
      (guess dbOne sPending (some "B")).2.1.history =
        some (historyOf sPending ++ [e]) ∧
      (guess dbOne sPending (some "B")).2.1.score =
        some ⟨(scoreOf sPending).right + (if e.is_right then 1 else 0),
              (scoreOf sPending).total + 1⟩) ∧
    ((∃ t, historyOf (applyOp dbOne sPending .opSkipName).2 =
        historyOf sPending ++ t) ∨
      historyOf (applyOp dbOne sPending .opSkipName).2 = []) :=
  ⟨c9_score_history_invariant.1 initSession ⟨dbEmpty, [], rfl⟩,
   c9_score_history_invariant.2.1 dbOne sPending (some "B") ⟨rfl, by decide⟩,
   c9_score_history_invariant.2.2 dbOne sPending .opSkipName⟩

/-- C10: with a round pending, a guess whose chosen name is absent or differs
from the subject's name is scored as an incorrect guess — `score.total` is
incremented with `score.right` unchanged, the subject's `total_guesses` is
incremented with `correct_guesses` unchanged, all other stats rows and tables
are untouched, one history entry marked wrong is appended, and no error is
raised. -/
theorem c10_wrong_guess_scored (db : DB) (s : SessionState) (chosen : Option String)
    (cid : Nat) (p : Person)
    (hc : s.correct_person_id = some cid)
    (hf : findPerson db cid = some p)
    (hch : chosen ≠ some p.name)
    (hrem : s.remaining_people ≠ some none) :
    ∃ db' s' r, guess db s chosen = (db', s', .json r) ∧
      r.is_right = false ∧ r.chosen = chosen ∧ r.correct = p.name ∧
      scoreOf s' = ⟨(scoreOf s).right, (scoreOf s).total + 1⟩ ∧
      historyOf s' = historyOf s ++ [⟨chosen, p.name, false, s.current_track_ids.getD []⟩] ∧
      statsFor db' cid = ⟨cid, (statsFor db cid).correct_guesses,
        (statsFor db cid).total_guesses + 1⟩ ∧
      (∀ q, q ≠ cid → statsFor db' q = statsFor db q) ∧
      db'.people = db.people ∧ db'.tracks = db.tracks ∧ db'.leaderboard = db.leaderboard := by
  have hres : (chosen == some p.name) = false := beq_eq_false_iff_ne.mpr hch
  have hstats : statsFor ⟨db.people, db.tracks,
      updateStats db.person_stats cid false, db.leaderboard⟩ cid =
      ⟨cid, (statsFor db cid).correct_guesses, (statsFor db cid).total_guesses + 1⟩ := by
    unfold statsFor
    simpa using statsFor_updateStats db.person_stats cid false
  have hstatsq : ∀ q, q ≠ cid → statsFor ⟨db.people, db.tracks,
      updateStats db.person_stats cid false, db.leaderboard⟩ q = statsFor db q := by
    intro q hqne
    unfold statsFor
    rw [show (⟨db.people, db.tracks, updateStats db.person_stats cid false,
      db.leaderboard⟩ : DB).person_stats = updateStats db.person_stats cid false from rfl,
      find?_updateStats_other db.person_stats cid false q hqne]
  unfold guess
  rw [hc]
  simp only [hf, hres, Bool.false_eq_true, if_false]
  rcases hr : s.remaining_people with _ | (_ | rem)
  · cases hcur : s.current_person_id with
    | none =>
      refine ⟨_, _, _, rfl, rfl, rfl, rfl, ?_, ?_, hstats, hstatsq, rfl, rfl, rfl⟩
      · simp [scoreOf]
      · simp [historyOf]
    | some cpid =>
      simp only [List.mem_nil_iff, if_false]
      refine ⟨_, _, _, rfl, rfl, rfl, rfl, ?_, ?_, hstats, hstatsq, rfl, rfl, rfl⟩
      · simp [scoreOf]
      · simp [historyOf]
  · exact absurd hr hrem
  · cases hcur : s.current_person_id with
    | none =>
      refine ⟨_, _, _, rfl, rfl, rfl, rfl, ?_, ?_, hstats, hstatsq, rfl, rfl, rfl⟩
      · simp [scoreOf]
      · simp [historyOf]
    | some cpid =>
      by_cases hmem : cpid ∈ rem
      · simp only [hmem, if_true]
        by_cases he : (rem.erase cpid).isEmpty
        · simp only [he, if_true]
          refine ⟨_, _, _, rfl, rfl, rfl, rfl, ?_, ?_, hstats, hstatsq, rfl, rfl, rfl⟩
          · simp [scoreOf]
          · simp [historyOf]
        · simp only [he, if_false]
          refine ⟨_, _, _, rfl, rfl, rfl, rfl, ?_, ?_, hstats, hstatsq, rfl, rfl, rfl⟩
          · simp [scoreOf]
          · simp [historyOf]
      · simp only [hmem, if_false]
        refine ⟨_, _, _, rfl, rfl, rfl, rfl, ?_, ?_, hstats, hstatsq, rfl, rfl, rfl⟩
        · simp [scoreOf]
        · simp [historyOf]

/-- C10 witness: guessing "B" for subject "A" on a concrete pending round. -/
theorem c10_wrong_guess_scored_witness :
    ∃ db' s' r, guess dbOne sPending (some "B") = (db', s', .json r) ∧
      r.is_right = false ∧ r.chosen = some "B" ∧ r.correct = (⟨1, "A"⟩ : Person).name ∧
      scoreOf s' = ⟨(scoreOf sPending).right, (scoreOf sPending).total + 1⟩ ∧
      historyOf s' = historyOf sPending ++
        [⟨some "B", (⟨1, "A"⟩ : Person).name, false,
          sPending.current_track_ids.getD []⟩] ∧
      statsFor db' 1 = ⟨1, (statsFor dbOne 1).correct_guesses,
        (statsFor dbOne 1).total_guesses + 1⟩ ∧
      (∀ q, q ≠ 1 → statsFor db' q = statsFor dbOne q) ∧
      db'.people = dbOne.people ∧ db'.tracks = dbOne.tracks ∧
      db'.leaderboard = dbOne.leaderboard :=
  c10_wrong_guess_scored dbOne sPending (some "B") 1 ⟨1, "A"⟩ rfl rfl
    (by decide) (by decide)

end SpotifyWrapped
